import Mathlib

/-!
Verification development for the metabase core of the storj satellite.

The Go sources are shallowly embedded: each SQL statement or pure helper is
translated into an executable Lean definition over explicit table states
(lists of rows).  Byte strings are lists of naturals ordered
lexicographically, timestamps are integers (0 standing for Go's zero time),
and machine integers are `Int` (none of the embedded arithmetic can
overflow 64 bits on the inputs considered).  Every claim about the code is
then settled as a theorem about these definitions.
-/

deriving instance DecidableEq for Except

namespace Metabase

/-- Error kinds of the metabase (design §7): stable identities used to signal
failure conditions across the adapter boundary. -/
inductive ErrKind where
  | invalidRequest
  | objectNotFound
  | pendingObjectMissing
  | segmentNotFound
  | objectAlreadyExists
  | conflictErr
  | preconditionFailed
  | objectLock
  | objectExpiration
  | objectStatusErr
  | valueChanged
  | internalErr
deriving DecidableEq

/-- Object statuses.  Modelled from the spec (§3): the Go `ObjectStatus`
constants live in a metabase file that is not among the provided sources; the
spec lists exactly Pending, Committed-Unversioned, Committed-Versioned,
Delete-Marker-Unversioned and Delete-Marker-Versioned.  The listing code also
uses a synthetic Prefix status for collapsed prefix entries. -/
inductive ObjectStatus where
  | pending
  | committedUnversioned
  | committedVersioned
  | deleteMarkerUnversioned
  | deleteMarkerVersioned
  | prefixEntry
deriving DecidableEq

/-- Whether a status is one of the two delete-marker statuses. -/
def ObjectStatus.isDeleteMarker : ObjectStatus → Bool
  | .deleteMarkerUnversioned => true
  | .deleteMarkerVersioned => true
  | _ => false

/-- Whether a status is one of the two committed statuses. -/
def ObjectStatus.isCommitted : ObjectStatus → Bool
  | .committedUnversioned => true
  | .committedVersioned => true
  | _ => false

/-- Status assigned by commit: versioned or unversioned committed. -/
def committedWhereVersioned (versioned : Bool) : ObjectStatus :=
  if versioned then .committedVersioned else .committedUnversioned

/-- Object keys, bucket names and other byte strings are modelled as lists of
bytes; comparisons use the lexicographic order, matching SQL byte-string
comparison. -/
abbrev Key := List Nat

/-- Versions are 64-bit integers in the schema. -/
abbrev Version := Int

/-- Model of `MaxVersion` (`math.MaxInt64`). -/
def maxVersion : Version := 9223372036854775807

/-- Model of the `NextVersion` sentinel (`Version(0)`). -/
def nextVersionSentinel : Version := 0

/-- Retention modes (§3): none, governance or compliance. -/
inductive RetentionMode where
  | noRetention
  | governance
  | compliance
deriving DecidableEq

/-- Retention configuration.  Modelled from the spec (§3): a mode plus a
retain-until timestamp; the Go `Retention` type lives in a source file that is
not provided.  Timestamps are integers, with 0 standing for Go's zero
`time.Time`. -/
structure Retention where
  mode : RetentionMode
  retainUntil : Int
deriving DecidableEq

/-- Modelled from the spec: `Retention.Enabled` holds when the mode is not
none. -/
def Retention.enabledB (r : Retention) : Bool := r.mode != .noRetention

/-- Modelled from the spec: `Retention.Verify` requires a nonzero retain-until
exactly when the mode is enabled; failures are invalid-request. -/
def Retention.verifyB (r : Retention) : Option ErrKind :=
  match r.mode with
  | .noRetention => if r.retainUntil = 0 then none else some .invalidRequest
  | _ => if r.retainUntil = 0 then some .invalidRequest else none

/-- Modelled from the spec: an active retention is an enabled one whose
retain-until lies strictly in the future. -/
def Retention.activeAt (r : Retention) (now : Int) : Bool :=
  r.enabledB && decide (now < r.retainUntil)

/-- Encryption parameters; the zero value models Go's
`storj.EncryptionParameters{}`, stored as 0 in the `encryption` column. -/
structure EncryptionParameters where
  cipherSuite : Nat
  blockSize : Int
deriving DecidableEq

/-- Whether the parameters are the zero value (stored as 0 / NULL-candidate in
the `encryption` column). -/
def EncryptionParameters.isZero (e : EncryptionParameters) : Bool :=
  e.cipherSuite == 0 && e.blockSize == 0

/-- Encrypted user metadata carried on an object (§3). -/
structure EncryptedUserData where
  encryptedMetadata : Key
  encryptedMetadataNonce : Key
  encryptedMetadataEncryptedKey : Key
  encryptedETag : Key
deriving DecidableEq

/-- Modelled from the spec: `EncryptedUserData.Verify` (not among the provided
sources) requires the nonce and encrypted key to be present exactly when the
encrypted metadata is present; all failures are invalid-request. -/
def userDataVerify (d : EncryptedUserData) : Option ErrKind :=
  if d.encryptedMetadata != [] then
    if d.encryptedMetadataNonce == [] || d.encryptedMetadataEncryptedKey == [] then
      some .invalidRequest
    else none
  else
    if d.encryptedMetadataNonce != [] || d.encryptedMetadataEncryptedKey != [] then
      some .invalidRequest
    else none

/-- A remote piece: (piece number, storage node).  Node ids are abstracted to
naturals. -/
structure Piece where
  number : Nat
  storageNode : Nat
deriving DecidableEq

/-- A piece list as carried in requests. -/
abbrev Pieces := List Piece

/-- Alias pieces: (piece number, node alias) pairs (§6). -/
abbrev AliasPieces := List (Nat × Nat)

/-- Modelled from the spec: `Pieces.Verify` (not among the provided sources)
requires at least one piece and strictly increasing piece numbers; all
failures are invalid-request. -/
def piecesVerify : Pieces → Option ErrKind
  | [] => some .invalidRequest
  | p :: rest => piecesVerifyGo p rest
where piecesVerifyGo : Piece → Pieces → Option ErrKind
  | _, [] => none
  | cur, q :: rest =>
    if q.number ≤ cur.number then some .invalidRequest else piecesVerifyGo q rest

/-- Modelled from the spec: the alias cache (`EnsurePiecesToAliases`) maps node
ids to aliases one-to-one; it is modelled by the identity embedding, which
preserves the injectivity that piece-set comparisons rely on. -/
def piecesToAliases (ps : Pieces) : AliasPieces :=
  ps.map fun p => (p.number, p.storageNode)

/-- A redundancy scheme (`storj.RedundancyScheme`). -/
structure RedundancyScheme where
  algorithm : Nat
  shareSize : Int
  requiredShares : Nat
  repairShares : Nat
  optimalShares : Nat
  totalShares : Nat
deriving DecidableEq

/-- Whether the scheme is the zero value. -/
def RedundancyScheme.isZero (r : RedundancyScheme) : Bool :=
  r == ⟨0, 0, 0, 0, 0, 0⟩

/-- A segment position: the packed (part, index) pair (§3, §6). -/
structure SegmentPos where
  part : Nat
  index : Nat
deriving DecidableEq

/-- A row of the `objects` table (§3, §6). -/
structure ObjRow where
  projectID : Nat
  bucket : Key
  objectKey : Key
  version : Version
  streamID : Nat
  status : ObjectStatus
  createdAt : Int
  expiresAt : Option Int
  encryption : EncryptionParameters
  segmentCount : Int
  totalPlainSize : Int
  totalEncryptedSize : Int
  fixedSegmentSize : Int
  zombieDeletionDeadline : Option Int
  retention : Retention
  legalHold : Bool
  userData : EncryptedUserData
deriving DecidableEq

/-- A row of the `segments` table (§3, §6). -/
structure SegRow where
  streamID : Nat
  position : SegmentPos
  expiresAt : Option Int
  rootPieceID : Nat
  encryptedKeyNonce : Key
  encryptedKey : Key
  encryptedSize : Int
  plainOffset : Int
  plainSize : Int
  encryptedETag : Key
  redundancy : RedundancyScheme
  remoteAliasPieces : Option AliasPieces
  placement : Nat
  inlineData : Option Key
  repairedAt : Option Int
deriving DecidableEq

/-- The database state: the two metabase tables. -/
structure DBState where
  objects : List ObjRow
  segments : List SegRow
deriving DecidableEq

/-- Metabase configuration values used by `CommitObject`. -/
structure DBConfig where
  maxNumberOfParts : Nat
  minPartSize : Int
deriving DecidableEq

/-- Whether a row sits at a (project, bucket, key) location. -/
def ObjRow.atLocation (r : ObjRow) (proj : Nat) (bucket objKey : Key) : Bool :=
  r.projectID == proj && r.bucket == bucket && r.objectKey == objKey

/-- An object stream: the full (project, bucket, key, version, stream)
identity carried by lifecycle requests. -/
structure ObjectStream where
  projectID : Nat
  bucket : Key
  objectKey : Key
  version : Version
  streamID : Nat
deriving DecidableEq

/-- Modelled from the spec: `ObjectStream.Verify` (not among the provided
sources) rejects a zero project, empty bucket or key, negative version or zero
stream id; all failures are invalid-request. -/
def objectStreamVerify (s : ObjectStream) : Option ErrKind :=
  if s.projectID == 0 then some .invalidRequest
  else if s.bucket == [] then some .invalidRequest
  else if s.objectKey == [] then some .invalidRequest
  else if s.version < 0 then some .invalidRequest
  else if s.streamID == 0 then some .invalidRequest
  else none

/-- Modelled from the spec: `ObjectLocation.Verify` (not among the provided
sources) rejects a zero project, empty bucket or key; failures are
invalid-request. -/
def objectLocationVerify (proj : Nat) (bucket objKey : Key) : Option ErrKind :=
  if proj == 0 then some .invalidRequest
  else if bucket == [] then some .invalidRequest
  else if objKey == [] then some .invalidRequest
  else none

/-! ## Retention updates (src/satellite/metabase/update.go) -/

/-- The information read before a retention update
(`preUpdateRetentionInfo`, update.go lines 503-509). -/
structure PreUpdateRetentionInfo where
  status : ObjectStatus
  expiresAt : Option Int
  retention : Retention
deriving DecidableEq

/-- Translation of `preUpdateRetentionInfo.verifyWithoutStatus`
(update.go lines 519-540): rejects objects with an expiry, malformed stored
retention, and — when the stored retention is active — removal of the
retention or a new retain-until strictly before the current one. -/
def verifyWithoutStatus (info : PreUpdateRetentionInfo) (newRetention : Retention)
    (now : Int) : Option ErrKind :=
  if info.expiresAt.isSome then some .objectExpiration
  else
    match info.retention.verifyB with
    | some e => some e
    | none =>
      if info.retention.activeAt now then
        if !newRetention.enabledB then some .objectLock
        else if newRetention.retainUntil < info.retention.retainUntil then some .objectLock
        else none
      else none

/-- Translation of `preUpdateRetentionInfo.verify` (update.go lines 511-517):
additionally requires a committed status. -/
def preUpdateVerify (info : PreUpdateRetentionInfo) (newRetention : Retention)
    (now : Int) : Option ErrKind :=
  if !info.status.isCommitted then some .objectStatusErr
  else verifyWithoutStatus info newRetention now

/-- Arguments of `SetObjectExactVersionRetention` (update.go lines 216-221). -/
structure SetObjectExactVersionRetentionOpts where
  projectID : Nat
  bucket : Key
  objectKey : Key
  version : Version
  retention : Retention
deriving DecidableEq

/-- Translation of `SetObjectExactVersionRetention.Verify`
(update.go lines 224-232). -/
def setExactRetentionOptsVerify (o : SetObjectExactVersionRetentionOpts) : Option ErrKind :=
  match objectLocationVerify o.projectID o.bucket o.objectKey with
  | some e => some e
  | none =>
    match o.retention.verifyB with
    | some _ => some .invalidRequest
    | none => none

/-- Translation of `(*PostgresAdapter).SetObjectExactVersionRetention` together
with the `DB` wrapper (update.go lines 235-303): read the row, verify the
retention transition, then update `retention_mode` and `retain_until`. -/
def setObjectExactVersionRetention (db : DBState) (o : SetObjectExactVersionRetentionOpts)
    (now : Int) : Except ErrKind DBState :=
  match setExactRetentionOptsVerify o with
  | some e => .error e
  | none =>
    match db.objects.find? (fun r =>
        r.atLocation o.projectID o.bucket o.objectKey && r.version == o.version) with
    | none => .error .objectNotFound
    | some row =>
      match preUpdateVerify ⟨row.status, row.expiresAt, row.retention⟩ o.retention now with
      | some e => .error e
      | none =>
        .ok { db with objects := db.objects.map (fun r =>
          if r.atLocation o.projectID o.bucket o.objectKey && r.version == o.version then
            { r with retention := o.retention }
          else r) }

/-- Arguments of `SetObjectLastCommittedRetention` (update.go lines 382-385). -/
structure SetObjectLastCommittedRetentionOpts where
  projectID : Nat
  bucket : Key
  objectKey : Key
  retention : Retention
deriving DecidableEq

/-- The newest committed row at a location (the
`ORDER BY version DESC LIMIT 1` query over committed statuses,
update.go lines 419-427). -/
def lastCommittedVersionRow (objects : List ObjRow) (proj : Nat) (bucket objKey : Key) :
    Option ObjRow :=
  let committedRows := objects.filter (fun r =>
    r.atLocation proj bucket objKey && r.status.isCommitted)
  match (committedRows.map (fun r => r.version)).max? with
  | none => none
  | some v => committedRows.find? (fun r => r.version == v)

/-- Translation of `(*PostgresAdapter).SetObjectLastCommittedRetention` with
its `DB` wrapper (update.go lines 388-450): resolve the newest committed
version, verify the retention transition ignoring status, then delegate to the
exact-version update. -/
def setObjectLastCommittedRetention (db : DBState) (o : SetObjectLastCommittedRetentionOpts)
    (now : Int) : Except ErrKind DBState :=
  match objectLocationVerify o.projectID o.bucket o.objectKey with
  | some e => .error e
  | none =>
    match o.retention.verifyB with
    | some _ => .error .invalidRequest
    | none =>
      match lastCommittedVersionRow db.objects o.projectID o.bucket o.objectKey with
      | none => .error .objectNotFound
      | some row =>
        match verifyWithoutStatus ⟨row.status, row.expiresAt, row.retention⟩ o.retention now with
        | some e => .error e
        | none =>
          .ok { db with objects := db.objects.map (fun r =>
            if r.atLocation o.projectID o.bucket o.objectKey && r.version == row.version then
              { r with retention := o.retention }
            else r) }

/-! ## Update segment pieces (src/satellite/metabase/update.go) -/

/-- Arguments of `UpdateSegmentPieces` (update.go lines 38-52).  A zero Go
`time.Time` for `NewRepairedAt` is modelled as `none`. -/
structure UpdateSegmentPiecesOpts where
  streamID : Nat
  position : SegmentPos
  oldPieces : Pieces
  newRedundancy : RedundancyScheme
  newPieces : Pieces
  newRepairedAt : Option Int
deriving DecidableEq

/-- Translation of `(*PostgresAdapter).UpdateSegmentPieces`
(update.go lines 125-155): the conditional UPDATE replaces the piece set,
redundancy and (when supplied) repaired-at only when the stored piece set
equals the expected old one, and returns the post-update piece set. -/
def updateSegmentPiecesAdapter (segs : List SegRow) (o : UpdateSegmentPiecesOpts)
    (oldPieces newPieces : AliasPieces) : Except ErrKind (Option AliasPieces × List SegRow) :=
  match segs.find? (fun s => s.streamID == o.streamID && s.position == o.position) with
  | none => .error .segmentNotFound
  | some s =>
    let s' := if s.remoteAliasPieces == some oldPieces then
        { s with
          remoteAliasPieces := some newPieces,
          redundancy := o.newRedundancy,
          repairedAt := if o.newRepairedAt.isSome then o.newRepairedAt else s.repairedAt }
      else s
    .ok (s'.remoteAliasPieces,
      segs.map (fun t =>
        if t.streamID == o.streamID && t.position == o.position then s' else t))

/-- Translation of `DB.UpdateSegmentPieces` (update.go lines 56-122) over a
single adapter: validation, alias conversion, the conditional update, the
`resultPieces == nil` check translating a NULL returned piece set (an inline
segment left untouched by the conditional update) to segment-not-found
(lines 111-113), and the comparison of the returned piece set against the
expected new one (lines 115-117). -/
def updateSegmentPieces (segs : List SegRow) (o : UpdateSegmentPiecesOpts) :
    Except ErrKind (List SegRow) :=
  if o.streamID == 0 then .error .invalidRequest
  else
    match piecesVerify o.oldPieces with
    | some _ => .error .invalidRequest
    | none =>
      if o.newRedundancy.isZero then .error .invalidRequest
      else if o.newPieces.length < o.newRedundancy.repairShares then .error .invalidRequest
      else
        match piecesVerify o.newPieces with
        | some _ => .error .invalidRequest
        | none =>
          let oldAP := piecesToAliases o.oldPieces
          let newAP := piecesToAliases o.newPieces
          match updateSegmentPiecesAdapter segs o oldAP newAP with
          | .error e => .error e
          | .ok (result, segs2) =>
            match result with
            | none => .error .segmentNotFound
            | some rp => if rp == newAP then .ok segs2 else .error .valueChanged

/-! ## Begin object (src/unnamed/part_002) -/

/-- Arguments of `BeginObjectNextVersion` (part_002 lines 51-65). -/
structure BeginObjectNextVersionOpts where
  stream : ObjectStream
  expiresAt : Option Int
  zombieDeletionDeadline : Option Int
  userData : EncryptedUserData
  encryption : EncryptionParameters
  retention : Retention
  legalHold : Bool
deriving DecidableEq

/-- Translation of `BeginObjectNextVersion.Verify` (part_002 lines 68-96). -/
def beginObjectNextVersionVerify (o : BeginObjectNextVersionOpts) : Option ErrKind :=
  match objectStreamVerify o.stream with
  | some e => some e
  | none =>
    if o.stream.version != nextVersionSentinel then some .invalidRequest
    else
      match userDataVerify o.userData with
      | some e => some e
      | none =>
        match o.retention.verifyB with
        | some _ => some .invalidRequest
        | none =>
          if o.expiresAt.isSome && (o.retention.enabledB || o.legalHold) then
            some .invalidRequest
          else none

/-- The version computed by the INSERT of
`(*PostgresAdapter).BeginObjectNextVersion` (part_002 lines 136-168):
`coalesce((SELECT version + 1 FROM objects WHERE location ORDER BY version
DESC LIMIT 1), 1)`. -/
def beginObjectNextVersionSQLVersion (objects : List ObjRow) (proj : Nat)
    (bucket objKey : Key) : Version :=
  match ((objects.filter (fun r => r.atLocation proj bucket objKey)).map
      (fun r => r.version)).max? with
  | some m => m + 1
  | none => 1

/-- Model of `defaultZombieDeletionPeriod` (24 h), in seconds. -/
def defaultZombieDeletionPeriod : Int := 86400

/-- The pending row inserted by the BeginObjectNextVersion INSERT: version
from the coalesce subquery, Pending status from the schema default, and the
defaulted zombie-deletion deadline (24 h from now when unset). -/
def beginObjectInsertedRow (objects : List ObjRow) (now : Int)
    (o : BeginObjectNextVersionOpts) : ObjRow := {
  projectID := o.stream.projectID
  bucket := o.stream.bucket
  objectKey := o.stream.objectKey
  version := beginObjectNextVersionSQLVersion objects o.stream.projectID
    o.stream.bucket o.stream.objectKey
  streamID := o.stream.streamID
  status := .pending
  createdAt := now
  expiresAt := o.expiresAt
  encryption := o.encryption
  segmentCount := 0
  totalPlainSize := 0
  totalEncryptedSize := 0
  fixedSegmentSize := 0
  zombieDeletionDeadline := match o.zombieDeletionDeadline with
    | some t => some t
    | none => some (now + defaultZombieDeletionPeriod)
  retention := o.retention
  legalHold := o.legalHold
  userData := o.userData }

/-- Translation of `DB.BeginObjectNextVersion` with the Postgres adapter
(part_002 lines 99-168): validation, then the atomic INSERT of
`beginObjectInsertedRow`, whose version is `coalesce(max(version) + 1, 1)`
over the location. -/
def beginObjectNextVersion (db : DBState) (now : Int) (o : BeginObjectNextVersionOpts) :
    Except ErrKind (ObjRow × DBState) :=
  match beginObjectNextVersionVerify o with
  | some e => .error e
  | none =>
    .ok (beginObjectInsertedRow db.objects now o,
      { db with objects := db.objects ++ [beginObjectInsertedRow db.objects now o] })

/-! ## Commit segment (src/unnamed/part_002) -/

/-- Arguments of `CommitSegment` (part_002 lines 506-533). -/
structure CommitSegmentOpts where
  stream : ObjectStream
  position : SegmentPos
  rootPieceID : Nat
  expiresAt : Option Int
  encryptedKeyNonce : Key
  encryptedKey : Key
  plainOffset : Int
  plainSize : Int
  encryptedSize : Int
  encryptedETag : Key
  redundancy : RedundancyScheme
  pieces : Pieces
  placement : Nat
deriving DecidableEq

/-- Model of the `ValidatePlainSize` constant (part_002 line 27). -/
def validatePlainSize : Bool := false

/-- The validation sequence of `DB.CommitSegment` (part_002 lines 536-566),
including the piece-count lower bound against `Redundancy.OptimalShares`. -/
def commitSegmentChecks (o : CommitSegmentOpts) : Option ErrKind :=
  match objectStreamVerify o.stream with
  | some e => some e
  | none =>
    match piecesVerify o.pieces with
    | some e => some e
    | none =>
      if o.rootPieceID == 0 then some .invalidRequest
      else if o.encryptedKey == [] then some .invalidRequest
      else if o.encryptedKeyNonce == [] then some .invalidRequest
      else if o.encryptedSize ≤ 0 then some .invalidRequest
      else if o.plainSize ≤ 0 ∧ validatePlainSize = true then some .invalidRequest
      else if o.plainOffset < 0 then some .invalidRequest
      else if o.redundancy.isZero then some .invalidRequest
      else if o.pieces.length < o.redundancy.optimalShares then some .invalidRequest
      else none

/-- Whether an object row matches the full stream identity of a request in
Pending status (the subquery of the segment INSERT). -/
def pendingObjectMatch (r : ObjRow) (s : ObjectStream) : Bool :=
  r.projectID == s.projectID && r.bucket == s.bucket && r.objectKey == s.objectKey &&
    r.version == s.version && r.streamID == s.streamID && r.status == .pending

/-- The segment row written by `CommitPendingObjectSegment`; `inline_data` is
cleared and `repaired_at` is not among the inserted or updated columns. -/
def newCommitSegRow (o : CommitSegmentOpts) (ap : AliasPieces) : SegRow := {
  streamID := o.stream.streamID
  position := o.position
  expiresAt := o.expiresAt
  rootPieceID := o.rootPieceID
  encryptedKeyNonce := o.encryptedKeyNonce
  encryptedKey := o.encryptedKey
  encryptedSize := o.encryptedSize
  plainOffset := o.plainOffset
  plainSize := o.plainSize
  encryptedETag := o.encryptedETag
  redundancy := o.redundancy
  remoteAliasPieces := some ap
  placement := o.placement
  inlineData := none
  repairedAt := none }

/-- The `ON CONFLICT (stream_id, position) DO UPDATE` upsert of
`(*PostgresAdapter).CommitPendingObjectSegment` (part_002 lines 588-638): a
pre-existing row keyed by (stream, position) is overwritten on every updated
column — including `inline_data`, which is set to NULL — while `repaired_at`
is not in the update list and keeps its stored value. -/
def upsertSegment (segs : List SegRow) (row : SegRow) : List SegRow :=
  if segs.any (fun s => s.streamID == row.streamID && s.position == row.position) then
    segs.map (fun s =>
      if s.streamID == row.streamID && s.position == row.position then
        { row with repairedAt := s.repairedAt }
      else s)
  else segs ++ [row]

/-- Translation of `DB.CommitSegment` with
`(*PostgresAdapter).CommitPendingObjectSegment` (part_002 lines 536-638).
The SQL computes the inserted `stream_id` through a subquery over the pending
parent, so the pending-existence check and the segment write form one atomic
statement; this is modelled as a single state transition.  An empty subquery
makes the inserted `stream_id` NULL, and the resulting not-null violation is
translated to pending-object-missing. -/
def commitSegment (db : DBState) (o : CommitSegmentOpts) : Except ErrKind DBState :=
  match commitSegmentChecks o with
  | some e => .error e
  | none =>
    let ap := piecesToAliases o.pieces
    if db.objects.any (fun r => pendingObjectMatch r o.stream) then
      .ok { db with segments := upsertSegment db.segments (newCommitSegRow o ap) }
    else .error .pendingObjectMissing

/-! ## Commit object (src/unnamed/part_002) -/

/-- Arguments of `CommitObject` (part_002 lines 1029-1051).  An `IfNoneMatch`
value is modelled by whether it is the single element `*`
(`IfNoneMatch.All`). -/
structure CommitObjectOpts where
  stream : ObjectStream
  encryption : EncryptionParameters
  overrideEncryptedMetadata : Bool
  userData : EncryptedUserData
  disallowDelete : Bool
  versioned : Bool
  ifNoneMatchAll : Bool
deriving DecidableEq

/-- Translation of `CommitObject.Verify` (part_002 lines 1054-1071). -/
def commitObjectVerify (o : CommitObjectOpts) : Option ErrKind :=
  match objectStreamVerify o.stream with
  | some e => some e
  | none =>
    if o.encryption.cipherSuite != 0 && decide (o.encryption.blockSize ≤ 0) then
      some .invalidRequest
    else if o.overrideEncryptedMetadata then userDataVerify o.userData
    else none

/-- Insertion of an element into a sorted list (used to model SQL ORDER BY
with a computable, kernel-reducible sort). -/
def insertSorted {a : Type} (le : a → a → Bool) (x : a) : List a → List a
  | [] => [x]
  | b :: t => if le x b then x :: b :: t else b :: insertSorted le x t

/-- Insertion sort by a boolean comparator; models the ORDER BY clause of the
embedded SQL queries (any sorted permutation is a faithful model). -/
def sortByB {a : Type} (le : a → a → Bool) : List a → List a
  | [] => []
  | x :: t => insertSorted le x (sortByB le t)

/-- Ordering of segment rows by `position`, i.e. by the packed (part, index)
integer. -/
def posLeB (a b : SegRow) : Bool :=
  a.position.part < b.position.part ||
    (a.position.part == b.position.part && a.position.index ≤ b.position.index)

/-- The segments of a stream ordered by position
(`fetchSegmentsForCommit`; its SQL is `SELECT ... WHERE stream_id = $1 ORDER
BY position`, from the commit transaction). -/
def fetchSegmentsForCommit (segs : List SegRow) (sid : Nat) : List SegRow :=
  sortByB posLeB (segs.filter (fun s => s.streamID == sid))

/-- Modelled from the spec (§4.4 step 3): `convertToFinalSegments` recomputes
each segment's `plain_offset` as the running sum of the preceding plain sizes;
positions and sizes are unchanged. -/
def computeOffsets : Int → List SegRow → List SegRow
  | _, [] => []
  | off, s :: rest => { s with plainOffset := off } :: computeOffsets (off + s.plainSize) rest

/-- Modelled from the spec (§4.4 step 3): `updateSegmentOffsets` writes the
recomputed offsets back to the segment rows. -/
def updateSegmentOffsetRows (segs : List SegRow) (finals : List SegRow) : List SegRow :=
  segs.map (fun s =>
    match finals.find? (fun u => u.streamID == s.streamID && u.position == s.position) with
    | some u => u
    | none => s)

/-- Total plain size of the segments of one part. -/
def partTotalSize (segs : List SegRow) (part : Nat) : Int :=
  ((segs.filter (fun s => s.position.part == part)).map (fun s => s.plainSize)).sum

/-- The greatest part number among the segments (0 when there are none),
matching the `lastPart` accumulation of `validateParts`. -/
def lastPartOf (segs : List SegRow) : Nat :=
  (segs.map (fun s => s.position.part)).foldl max 0

/-- The distinct part numbers, matching the key set of the `partSize` map of
`validateParts`. -/
def distinctParts (segs : List SegRow) : List Nat :=
  (segs.map (fun s => s.position.part)).dedup

/-- Translation of `DB.validateParts` (part_002 lines 1386-1413): reject more
parts than configured, and reject any non-last part whose total plain size is
below the minimum. -/
def validateParts (cfg : DBConfig) (segs : List SegRow) : Option ErrKind :=
  if cfg.maxNumberOfParts < (distinctParts segs).length then some .preconditionFailed
  else if (distinctParts segs).any (fun p =>
      p != lastPartOf segs && decide (partTotalSize segs p < cfg.minPartSize)) then
    some .preconditionFailed
  else none

/-- The inner loop of the `fixedSegmentSize` computation of `DB.CommitObject`
(part_002 lines 1128-1141): `i` is the running index and `n` the total number
of segments; a position off the contiguous (part 0, index i) ladder or a
non-final segment whose plain size differs from the first yields -1. -/
def fixedSegGo : List SegRow → Int → Nat → Nat → Int
  | [], fss, _, _ => fss
  | s :: rest, fss, i, n =>
    if s.position.part != 0 || s.position.index != i then -1
    else if i + 1 < n ∧ s.plainSize ≠ fss then -1
    else fixedSegGo rest fss (i + 1) n

/-- The `fixedSegmentSize` computation of `DB.CommitObject`
(part_002 lines 1128-1141), 0 on an empty segment list. -/
def fixedSegmentSizeCalc : List SegRow → Int
  | [] => 0
  | f :: rest => fixedSegGo (f :: rest) f.plainSize 0 (rest.length + 1)

/-- Flags handed to the precommit constraint evaluator. -/
structure PrecommitOpts where
  versioned : Bool
  disallowDelete : Bool
  checkExistence : Bool
deriving DecidableEq

/-- Result of the precommit constraint evaluator (§4.3). -/
structure PrecommitResult where
  highestVersion : Version
  deletedObjectCount : Nat
  deletedSegmentCount : Nat
deriving DecidableEq

/-- The maximum version among the rows at a location, 0 when there are none
(the `highest_version` of §4.3). -/
def highestVersionAt (objects : List ObjRow) (proj : Nat) (bucket objKey : Key) : Version :=
  ((objects.filter (fun r => r.atLocation proj bucket objKey)).map
    (fun r => r.version)).foldl max 0

/-- Modelled from the spec: the precommit constraint evaluator (§4.3) lives in
a source file that is not provided.  Following §4.3: `highest_version` is the
maximum version at the location (0 if none); check-existence fails with
conflict when a committed object exists; a versioned commit deletes nothing;
an unversioned commit deletes the committed-unversioned and
delete-marker-unversioned rows (and, silently, expired pending rows) together
with their segments, aborting with object-lock when a deleted row carries an
active retention or legal hold, and with precondition when deletion is
disallowed but required. -/
def precommitConstraint (db : DBState) (proj : Nat) (bucket objKey : Key)
    (o : PrecommitOpts) (now : Int) : Except ErrKind (PrecommitResult × DBState) :=
  let atLoc := db.objects.filter (fun r => r.atLocation proj bucket objKey)
  let highest := (atLoc.map (fun r => r.version)).foldl max 0
  if o.checkExistence && atLoc.any (fun r => r.status.isCommitted) then
    .error .conflictErr
  else if o.versioned then
    .ok (⟨highest, 0, 0⟩, db)
  else
    let unversionedRows := atLoc.filter (fun r =>
      r.status == .committedUnversioned || r.status == .deleteMarkerUnversioned)
    let expiredPending := atLoc.filter (fun r =>
      r.status == .pending &&
        (match r.expiresAt with | some t => decide (t ≤ now) | none => false))
    if unversionedRows.any (fun r => r.legalHold || r.retention.activeAt now) then
      .error .objectLock
    else if o.disallowDelete && !unversionedRows.isEmpty then
      .error .preconditionFailed
    else
      let deleted := unversionedRows ++ expiredPending
      let deletedStreams := deleted.map (fun r => r.streamID)
      let delSegCount := (db.segments.filter
        (fun s => deletedStreams.contains s.streamID)).length
      .ok (⟨highest, deleted.length, delSegCount⟩,
        { objects := db.objects.filter (fun r => !(deleted.contains r))
          segments := db.segments.filter (fun s => !(deletedStreams.contains s.streamID)) })

/-- Version assignment of `DB.CommitObject` (part_002 lines 1160-1163): start
from the caller-supplied version and bump to `highest + 1` only when strictly
below the precommit highest version. -/
def commitObjectNextVersion (optsVersion highestVersion : Version) : Version :=
  if optsVersion < highestVersion then highestVersion + 1 else optsVersion

/-- Translation of `(*postgresTransactionAdapter).finalizeObjectCommit`
(part_002 lines 1195-1277): the UPDATE finds the pending row by full stream
identity, transitions it to the next status and version, stamps the totals,
clears the zombie deadline, and resolves the encryption parameters (pending
NULL parameters are filled from the request; both NULL is invalid-request).
The trailing retention and expiry consistency checks fail as wrapped internal
errors. -/
def finalizeObjectCommit (db : DBState) (o : CommitObjectOpts) (nextStatus : ObjectStatus)
    (nextVersion : Version) (segmentCount : Nat) (totalPlainSize totalEncryptedSize : Int)
    (fixedSegmentSize : Int) : Except ErrKind (ObjRow × DBState) :=
  match db.objects.find? (fun r => pendingObjectMatch r o.stream) with
  | none => .error .objectNotFound
  | some row =>
    if row.encryption.isZero && o.encryption.isZero then .error .invalidRequest
    else
      let newEncryption := if row.encryption.isZero then o.encryption else row.encryption
      let row' : ObjRow := { row with
        version := nextVersion
        status := nextStatus
        segmentCount := (segmentCount : Int)
        totalPlainSize := totalPlainSize
        totalEncryptedSize := totalEncryptedSize
        fixedSegmentSize := fixedSegmentSize
        zombieDeletionDeadline := none
        encryption := newEncryption
        userData := if o.overrideEncryptedMetadata then o.userData else row.userData }
      if (row.retention.verifyB).isSome then .error .internalErr
      else if row.expiresAt.isSome ∧ (row.legalHold || row.retention.enabledB) = true then
        .error .internalErr
      else
        .ok (row', { db with objects := db.objects.map (fun r =>
          if pendingObjectMatch r o.stream then row' else r) })

/-- Translation of `DB.CommitObject` (part_002 lines 1101-1193): within one
transaction, fetch the stream's segments in position order, validate the
multipart structure, recompute and write back offsets, derive the fixed
segment size and totals, run the precommit constraint, pick the next version,
and finalize the commit. -/
def commitObject (cfg : DBConfig) (db : DBState) (now : Int) (o : CommitObjectOpts) :
    Except ErrKind (ObjRow × DBState) :=
  match commitObjectVerify o with
  | some e => .error e
  | none =>
    let fetched := fetchSegmentsForCommit db.segments o.stream.streamID
    match validateParts cfg fetched with
    | some e => .error e
    | none =>
      let finals := computeOffsets 0 fetched
      let db1 : DBState := { db with segments := updateSegmentOffsetRows db.segments finals }
      let fixed := fixedSegmentSizeCalc finals
      let totalPlain := (finals.map (fun s => s.plainSize)).sum
      let totalEnc := (finals.map (fun s => s.encryptedSize)).sum
      let nextStatus := committedWhereVersioned o.versioned
      match precommitConstraint db1 o.stream.projectID o.stream.bucket o.stream.objectKey
          ⟨o.versioned, o.disallowDelete, o.ifNoneMatchAll⟩ now with
      | .error e => .error e
      | .ok (pre, db2) =>
        let nextVersion := commitObjectNextVersion o.stream.version pre.highestVersion
        finalizeObjectCommit db2 o nextStatus nextVersion finals.length totalPlain
          totalEnc fixed

/-! ## List objects (src/satellite/metabase/list_objects.go) -/

/-- The delimiter byte `/` (0x2f). -/
def delimiterByte : Nat := 47

/-- Model of `DelimiterNext` (the string `0`, whose byte is one above the
delimiter). -/
def delimiterNextByte : Nat := 48

/-- A row of the `objects` table as seen by the listing query.  The embedding
fixes one (project, bucket): the WHERE clause combines the cursor boundary
with `(project_id, bucket_name) < ($1, nextBucket)`, and together those tuple
comparisons admit exactly the rows of the request's project and bucket, so
the table is modelled as the rows of that bucket.  The `expired` flag
captures the negation of `expires_at IS NULL OR expires_at > now()`.
Metadata payload columns do not influence the listing control flow and are
represented by `status` and `streamID`. -/
structure ListRow where
  objectKey : Key
  version : Version
  status : ObjectStatus
  streamID : Nat
  expired : Bool
deriving DecidableEq

/-- An entry produced by the listing (`ObjectEntry`): for collapsed prefixes
`isPfx` is set, the key is truncated after the delimiter, the status is the
synthetic Prefix status and the version is the zero value, exactly as
`scanListObjectsEntryPostgres` rebuilds the entry. -/
structure ObjectEntry where
  objectKey : Key
  version : Version
  status : ObjectStatus
  isPfx : Bool
  isLatest : Bool
deriving DecidableEq

/-- The tuning parameters of `ListObjects` (list_objects.go lines 48-57). -/
structure ListParams where
  versionSkipRequery : Nat
  pfxSkipRequery : Nat
  queryExtraForNonRecursive : Nat
  minBatchSize : Nat
deriving DecidableEq

/-- Arguments of `ListObjects` (list_objects.go lines 31-45) relevant to the
Postgres adapter loop; `pfx` models the `Prefix` field. -/
structure ListOpts where
  recursive : Bool
  limit : Nat
  pfx : Key
  cursorKey : Key
  cursorVersion : Version
  pending : Bool
  allVersions : Bool
  unversioned : Bool
  params : ListParams
deriving DecidableEq

/-- Translation of `ListObjects.VersionAscending`
(list_objects.go 607-609). -/
def ListOpts.versionAscending (o : ListOpts) : Bool := o.pending || o.unversioned

/-- Translation of `ListObjects.FirstVersion` (list_objects.go 590-596). -/
def ListOpts.firstVersion (o : ListOpts) : Version :=
  if o.versionAscending then 0 else maxVersion

/-- Translation of `ListObjects.lastVersion` (list_objects.go 598-604). -/
def ListOpts.lastVersion (o : ListOpts) : Version :=
  if o.versionAscending then maxVersion else 0

/-- Index of the first delimiter byte in a key
(`strings.IndexByte(key, '/')`). -/
def firstDelim : Key → Option Nat
  | [] => none
  | b :: rest =>
    if b = delimiterByte then some 0
    else
      match firstDelim rest with
      | some i => some (i + 1)
      | none => none

/-- Modelled from the spec (§4.5): `PrefixLimit(prefix)` (not among the
provided sources) is the lexicographically smallest key strictly greater than
every key sharing the prefix: trailing maximal bytes (255) are stripped and
the last remaining byte is incremented; an empty result means no upper bound
exists and the `object_key < stop` condition matches nothing.  The recursion
keeps a byte when the rest of the key still contains a non-maximal byte, and
otherwise increments it (or gives up on a maximal byte). -/
def prefixLimit : Key → Key
  | [] => []
  | b :: rest =>
    match prefixLimit rest with
    | [] => if b == 255 then [] else [b + 1]
    | q => b :: q

/-- A listing cursor: a key and a version position inside that key. -/
structure Cursor where
  key : Key
  version : Version
deriving DecidableEq

/-- Translation of `ListObjects.StartCursor` (list_objects.go 647-679). -/
def ListOpts.startCursor (o : ListOpts) : Cursor :=
  if o.pfx.isPrefixOf o.cursorKey then
    if o.recursive then ⟨o.cursorKey, o.firstVersion⟩
    else
      match firstDelim (o.cursorKey.drop o.pfx.length) with
      | some i => ⟨o.cursorKey.take (o.pfx.length + i) ++ [delimiterNextByte], o.firstVersion⟩
      | none => ⟨o.cursorKey, o.firstVersion⟩
  else
    if o.cursorKey < o.pfx then ⟨o.pfx, o.firstVersion⟩
    else ⟨o.cursorKey, o.firstVersion⟩

/-- The cursor boundary of `ListObjects.boundaryPostgres`
(list_objects.go 536-552), restricted to the request's bucket: ascending mode
admits (key, version) strictly above the cursor pair; descending mode admits
keys strictly above the cursor key, or the cursor key itself with a version
strictly below the cursor version. -/
def afterCursorB (o : ListOpts) (c : Cursor) (r : ListRow) : Bool :=
  if o.versionAscending then
    decide (c.key < r.objectKey) || (r.objectKey == c.key && decide (c.version < r.version))
  else
    decide (c.key < r.objectKey) || (r.objectKey == c.key && decide (r.version < c.version))

/-- The prefix stop condition (`object_key < $8` with the stop key
`PrefixLimit(prefix)`), present only when a prefix is given
(list_objects.go 529-552). -/
def underStopB (o : ListOpts) (r : ListRow) : Bool :=
  if o.pfx == [] then true else decide (r.objectKey < prefixLimit o.pfx)

/-- The status condition of the listing query (list_objects.go 160-163):
pending listings keep only pending rows, others exclude them. -/
def statusCondB (o : ListOpts) (r : ListRow) : Bool :=
  if o.pending then r.status == .pending else r.status != .pending

/-- The full row filter of one batch query (the WHERE clause,
list_objects.go 165-177). -/
def rowSelectedB (o : ListOpts) (c : Cursor) (r : ListRow) : Bool :=
  afterCursorB o c r && underStopB o r && statusCondB o r && !r.expired

/-- The ORDER BY of the listing query (list_objects.go 611-617): ascending by
key, versions ascending or descending according to the mode. -/
def rowLeB (o : ListOpts) (a b : ListRow) : Bool :=
  if o.versionAscending then
    decide (a.objectKey < b.objectKey) ||
      (a.objectKey == b.objectKey && decide (a.version ≤ b.version))
  else
    decide (a.objectKey < b.objectKey) ||
      (a.objectKey == b.objectKey && decide (b.version ≤ a.version))

/-- One batch query: the filtered rows in scan order, limited to the batch
size (`LIMIT $5`). -/
def queryBatch (db : List ListRow) (o : ListOpts) (c : Cursor) (bs : Nat) : List ListRow :=
  (sortByB (rowLeB o) (db.filter (rowSelectedB o c))).take bs

/-- Translation of the batch-size computation of
`(*PostgresAdapter).ListObjects` (list_objects.go 104-124): limit + 1 for the
`more` probe, + 3 when a cursor is set (`extraEntriesForIsLatest`), plus the
non-recursive extra, floored at the minimum batch size. -/
def batchSizeOf (o : ListOpts) : Nat :=
  let bs := o.limit + 1
  let bs := if !(o.cursorKey == [] && o.cursorVersion == 0) then bs + 3 else bs
  let bs := if !o.recursive then bs + o.params.queryExtraForNonRecursive else bs
  if bs < o.params.minBatchSize then o.params.minBatchSize else bs

/-- Translation of `scanListObjectsEntryPostgres` (list_objects.go 681-731):
the scanned key is the suffix after the request prefix
(`substring(object_key from $7)`); for a non-recursive listing a suffix
containing the delimiter collapses to a prefix entry truncated after the
first delimiter, carrying the synthetic Prefix status and a zero version. -/
def entryOfRow (o : ListOpts) (r : ListRow) : ObjectEntry :=
  let key := r.objectKey.drop o.pfx.length
  if o.recursive then ⟨key, r.version, r.status, false, false⟩
  else
    match firstDelim key with
    | some i => ⟨key.take (i + 1), 0, .prefixEntry, true, false⟩
    | none => ⟨key, r.version, r.status, false, false⟩

/-- The `lastEntry` snapshot of the listing loop (list_objects.go 127-133). -/
structure LastEntry where
  set : Bool
  objectKey : Key
  version : Version
  isPfx : Bool
deriving DecidableEq

/-- The skip counters of the listing loop (list_objects.go 137-141). -/
structure SkipCount where
  pfx : Nat
  ver : Nat
deriving DecidableEq

/-- The state threaded through the row loop: `lastEntry`, the skip counters,
the accumulated result entries, the per-batch scanned count and the per-batch
delete-marker flag. -/
structure BatchState where
  lastEntry : LastEntry
  skipCount : SkipCount
  objects : List ObjectEntry
  scanned : Nat
  foundMarker : Bool
deriving DecidableEq

/-- How the row loop of one batch ended: the rows ran out, the skip-requery
threshold broke out (`skipAhead`), or the limit + 1 entry was reached and the
listing returns. -/
inductive BatchSignal where
  | ranOut
  | skipAheadBreak
  | limitReturn
deriving DecidableEq

/-- Result of processing the rows of one batch. -/
structure BatchOut where
  st : BatchState
  signal : BatchSignal
deriving DecidableEq

/-- Translation of `entryKeyMatchesCursor` (list_objects.go 523-527): the
request cursor key splits as prefix ++ entry key. -/
def entryKeyMatchesCursorB (o : ListOpts) (entryKey : Key) : Bool :=
  o.cursorKey == o.pfx ++ entryKey

/-- The `sameEntry` test of the row loop (list_objects.go 206): the candidate
entry coincides with the previous one in kind and key. -/
def sameEntryB (le : LastEntry) (e : ObjectEntry) : Bool :=
  le.isPfx == e.isPfx && le.objectKey == e.objectKey

/-- The prefix-skip test of the row loop (list_objects.go 197-204). -/
def skipPfxB (le : LastEntry) (e : ObjectEntry) : Bool :=
  le.set && le.isPfx && e.isPfx && le.objectKey == e.objectKey

/-- The version-skip test of the row loop (list_objects.go 206-213). -/
def skipVersionB (o : ListOpts) (le : LastEntry) (e : ObjectEntry) : Bool :=
  le.set && !o.allVersions && sameEntryB le e

/-- The double-check against the request cursor (list_objects.go 215-227):
a row at the cursor key on the wrong side of the cursor version is skipped. -/
def dblCheckB (o : ListOpts) (e : ObjectEntry) : Bool :=
  if entryKeyMatchesCursorB o e.objectKey then
    if o.versionAscending then decide (e.version ≤ o.cursorVersion)
    else decide (o.cursorVersion ≤ e.version)
  else false

/-- The `IsLatest` adjustment of an accepted entry (list_objects.go 236-241):
for non-pending listings a plain entry is the latest of its key exactly when
it does not continue the previous entry. -/
def adjustLatest (o : ListOpts) (s : BatchState) (e0 : ObjectEntry) : ObjectEntry :=
  if !o.pending && !e0.isPfx then
    { e0 with isLatest := !sameEntryB s.lastEntry e0 || !s.lastEntry.set }
  else e0

/-- The `lastEntry` snapshot taken from a scanned row
(list_objects.go 194-195, 230-234). -/
def lastEntryOfRow (o : ListOpts) (r : ListRow) : LastEntry :=
  ⟨true, (entryOfRow o r).objectKey, (entryOfRow o r).version, (entryOfRow o r).isPfx⟩

/-- Translation of the row loop of `(*PostgresAdapter).ListObjects`
(list_objects.go 188-257).  Every scanned row updates `lastEntry`; skipped
rows bump the skip counters and may break out for a requery; consumed delete
markers set the per-batch flag without being appended; an appended entry
returns as soon as limit + 1 entries have accumulated (the caller trims the
extra entry, as the source does at its return site inside the loop). -/
def processRows (o : ListOpts) : List ListRow → BatchState → BatchOut
  | [], s => ⟨s, .ranOut⟩
  | r :: rest, s =>
    let entry0 := entryOfRow o r
    let scanned := s.scanned + 1
    let skipPfx := skipPfxB s.lastEntry entry0
    let skipVersion := skipVersionB o s.lastEntry entry0
    let entry := adjustLatest o s entry0
    let le : LastEntry := ⟨true, entry.objectKey, entry.version, entry.isPfx⟩
    if skipPfx || skipVersion || dblCheckB o entry0 then
      let sc : SkipCount := ⟨s.skipCount.pfx + (if skipPfx then 1 else 0),
        s.skipCount.ver + (if skipVersion then 1 else 0)⟩
      if o.params.pfxSkipRequery ≤ sc.pfx ∨ o.params.versionSkipRequery ≤ sc.ver then
        ⟨{ s with lastEntry := le, skipCount := ⟨0, 0⟩, scanned := scanned }, .skipAheadBreak⟩
      else processRows o rest { s with lastEntry := le, skipCount := sc, scanned := scanned }
    else
      let s1 : BatchState :=
        { s with lastEntry := le, skipCount := ⟨0, 0⟩, scanned := scanned }
      if !o.allVersions && entry.status.isDeleteMarker then
        processRows o rest { s1 with foundMarker := true }
      else
        let objects := s1.objects ++ [entry]
        if o.limit + 1 ≤ objects.length then
          ⟨{ s1 with objects := objects }, .limitReturn⟩
        else processRows o rest { s1 with objects := objects }

/-- Translation of the requery cursor switch (list_objects.go 279-294): jump
past a collapsed prefix, continue in place when keeping all versions, or jump
to the next key when collapsing versions. -/
def nextCursorOf (o : ListOpts) (le : LastEntry) : Cursor :=
  if le.isPfx then
    ⟨o.pfx ++ le.objectKey.dropLast ++ [delimiterNextByte], o.firstVersion⟩
  else if o.allVersions then ⟨o.pfx ++ le.objectKey, le.version⟩
  else ⟨o.pfx ++ le.objectKey, o.lastVersion⟩

/-- Outcome of a listing: `ok = false` models the `too many requeries`
programmer-error failure, which returns an empty result. -/
structure ListOut where
  ok : Bool
  objects : List ObjectEntry
  more : Bool
deriving DecidableEq

/-- Execution statistics of the requery loop, recorded to state the
termination claim: iterations run, batches that consumed a delete marker
(each increments the requery limit), the final requery limit, and the number
of result entries accumulated before trimming. -/
structure ListStats where
  iterations : Nat
  markerBatches : Nat
  finalRequeryLimit : Nat
  accumulated : Nat
deriving DecidableEq

/-- Translation of the requery loop of `(*PostgresAdapter).ListObjects`
(list_objects.go 145-298).  The `fuel` argument only bounds the structural
recursion; the termination theorem shows it is never exhausted when started
at `db.length + 2`.  The guard `repeat < requeryLimit` is checked on entry;
falling out returns the too-many-requeries failure with an empty result. -/
def listLoop (db : List ListRow) (o : ListOpts) :
    Nat → Nat → Nat → Cursor → BatchState → Nat → Option (ListOut × ListStats)
  | 0, _, _, _, _, _ => none
  | fuel + 1, repeatN, requeryLimit, c, s, markerBatches =>
    if requeryLimit ≤ repeatN then
      some (⟨false, [], false⟩, ⟨repeatN, markerBatches, requeryLimit, s.objects.length⟩)
    else
      let out := processRows o (queryBatch db o c (batchSizeOf o))
        { s with scanned := 0, foundMarker := false }
      match out.signal with
      | .limitReturn =>
        some (⟨true, out.st.objects.take o.limit, true⟩,
          ⟨repeatN + 1, markerBatches, requeryLimit, out.st.objects.length⟩)
      | _ =>
        let requeryLimit' := if out.st.foundMarker then requeryLimit + 1 else requeryLimit
        let markerBatches' := if out.st.foundMarker then markerBatches + 1 else markerBatches
        if out.st.scanned == 0 then
          some (⟨true, out.st.objects, false⟩,
            ⟨repeatN + 1, markerBatches', requeryLimit', out.st.objects.length⟩)
        else if out.signal != .skipAheadBreak && out.st.scanned < batchSizeOf o then
          some (⟨true, out.st.objects, false⟩,
            ⟨repeatN + 1, markerBatches', requeryLimit', out.st.objects.length⟩)
        else
          listLoop db o fuel (repeatN + 1) requeryLimit' (nextCursorOf o out.st.lastEntry)
            out.st markerBatches'

/-- Translation of `(*PostgresAdapter).ListObjects` (list_objects.go 98-298):
run the requery loop from the start cursor with the initial requery limit
`limit + 10` and a fresh loop state. -/
def listObjectsPostgres (db : List ListRow) (o : ListOpts) : Option (ListOut × ListStats) :=
  listLoop db o (db.length + 2) 0 (o.limit + 10) o.startCursor
    ⟨⟨false, [], 0, false⟩, ⟨0, 0⟩, [], 0, false⟩ 0

/-! ## Spec-side conditions and derived rows referenced by the theorems -/

/-- Claim-side condition of C3, over the list of segment positions: they form
the contiguous (part 0, index i), (part 0, index i+1), ... ladder starting at
`i`. -/
def contigFromB : Nat → List SegmentPos → Bool
  | _, [] => true
  | i, p :: rest => (p.part == 0 && p.index == i) && contigFromB (i + 1) rest

/-- Claim-side condition of C3, over the list of plain sizes: every size
except the last one equals `v`. -/
def nonLastAllSizeB : Int → List Int → Bool
  | _, [] => true
  | _, [_] => true
  | v, x :: y :: rest => x == v && nonLastAllSizeB v (y :: rest)

/-- Plain size of the first segment (0 for an empty list). -/
def headPlainSizeOf : List SegRow → Int
  | [] => 0
  | s :: _ => s.plainSize

/-- Well-formedness of the listing table assumed by the listing theorems:
versions lie in [1, maxVersion) (the SQL bigint versions the lifecycle
assigns start at 1 and the sentinel maxVersion is never stored) and object
keys are byte strings (every element below 256). -/
def RowsWF (db : List ListRow) : Prop :=
  ∀ r ∈ db, (1 ≤ r.version ∧ r.version < maxVersion) ∧ ∀ b ∈ r.objectKey, b < 256

/-- Claim-side condition of C7: a row passes the status and expiry filters of
the listing query, independently of the cursor range. -/
def visibleRow (o : ListOpts) (r : ListRow) : Prop :=
  statusCondB o r = true ∧ r.expired = false

/-- Claim-side condition of C7: the entry corresponds to a visible row that
is not a delete marker and carries the newest visible version of its key. -/
def newestVisibleNonMarker (db : List ListRow) (o : ListOpts) (e : ObjectEntry) : Prop :=
  ∃ r ∈ db, visibleRow o r ∧ r.objectKey = o.pfx ++ e.objectKey ∧
    r.version = e.version ∧ r.status = e.status ∧
    r.status.isDeleteMarker = false ∧
    ∀ r2 ∈ db, visibleRow o r2 → r2.objectKey = r.objectKey → r2.version ≤ r.version

/-- A result entry is a collapsed prefix or a newest visible non-marker
(the invariant carried through the listing loop for C7). -/
def entryOK (db : List ListRow) (o : ListOpts) (e : ObjectEntry) : Prop :=
  e.isPfx = true ∨ newestVisibleNonMarker db o e

/-- Number of rows still admitted by the batch query at a cursor; the requery
loop strictly decreases it, which bounds the iteration count (C8). -/
def remainingRows (db : List ListRow) (o : ListOpts) (c : Cursor) : Nat :=
  (db.filter (rowSelectedB o c)).length

/-- The row produced by a successful conditional piece replacement: new
pieces, new redundancy, and the new repaired-at when one was supplied. -/
def repairUpdatedRow (s : SegRow) (o : UpdateSegmentPiecesOpts) : SegRow :=
  { s with
    remoteAliasPieces := some (piecesToAliases o.newPieces)
    redundancy := o.newRedundancy
    repairedAt := if o.newRepairedAt.isSome then o.newRepairedAt else s.repairedAt }

/-! ## Concrete instances used by witnesses and counterexamples -/

/-- A small listing table: key [107] has three versions, the newest a delete
marker; key [109] has one committed version. -/
def exListRows : List ListRow := [
  ⟨[107], 3, .deleteMarkerVersioned, 1, false⟩,
  ⟨[107], 2, .committedVersioned, 2, false⟩,
  ⟨[107], 1, .committedVersioned, 3, false⟩,
  ⟨[109], 1, .committedVersioned, 4, false⟩]

/-- A plain recursive listing request without prefix or cursor. -/
def exListOpts : ListOpts := {
  recursive := true
  limit := 10
  pfx := []
  cursorKey := []
  cursorVersion := 0
  pending := false
  allVersions := false
  unversioned := false
  params := ⟨1000, 1000, 10, 100⟩ }

/-- A pending object row at version 5 of location (1, b, k), stream 9. -/
def exPendingRow : ObjRow := {
  projectID := 1
  bucket := [98]
  objectKey := [107]
  version := 5
  streamID := 9
  status := .pending
  createdAt := 0
  expiresAt := none
  encryption := ⟨1, 256⟩
  segmentCount := 0
  totalPlainSize := 0
  totalEncryptedSize := 0
  fixedSegmentSize := 0
  zombieDeletionDeadline := some 1000
  retention := ⟨.noRetention, 0⟩
  legalHold := false
  userData := ⟨[], [], [], []⟩ }

/-- A database holding just the pending row. -/
def exCommitDB : DBState := ⟨[exPendingRow], []⟩

/-- A versioned commit of the pending row, at its own version 5. -/
def exCommitOpts : CommitObjectOpts := {
  stream := ⟨1, [98], [107], 5, 9⟩
  encryption := ⟨0, 0⟩
  overrideEncryptedMetadata := false
  userData := ⟨[], [], [], []⟩
  disallowDelete := false
  versioned := true
  ifNoneMatchAll := false }

/-- A configuration with room for any number of parts and no minimum. -/
def exCfg : DBConfig := ⟨10000, 0⟩

/-- The committed row that the concrete commit produces. -/
def exCommittedRow : ObjRow := { exPendingRow with
  status := .committedVersioned
  zombieDeletionDeadline := none }

/-- The database state after the concrete commit. -/
def exCommittedDB : DBState := ⟨[exCommittedRow], []⟩

/-- A remote segment row of stream 9 at (part 0, index i) with the given
plain size. -/
def exSeg (i : Nat) (psize : Int) : SegRow := {
  streamID := 9
  position := ⟨0, i⟩
  expiresAt := none
  rootPieceID := 3
  encryptedKeyNonce := [1]
  encryptedKey := [2]
  encryptedSize := psize + 16
  plainOffset := 0
  plainSize := psize
  encryptedETag := []
  redundancy := ⟨1, 256, 1, 2, 3, 4⟩
  remoteAliasPieces := some [(0, 10), (1, 11), (2, 12)]
  placement := 0
  inlineData := none
  repairedAt := none }

/-- A database with the pending row and two segments of plain sizes 100 and
50 at positions (0,0) and (0,1). -/
def exCommitSegDB : DBState := ⟨[exPendingRow], [exSeg 0 100, exSeg 1 50]⟩

/-- The committed row produced by committing the two-segment stream. -/
def exCommittedSegRow : ObjRow := { exPendingRow with
  status := .committedVersioned
  zombieDeletionDeadline := none
  segmentCount := 2
  totalPlainSize := 150
  totalEncryptedSize := 182
  fixedSegmentSize := 100 }

/-- The database state after committing the two-segment stream: the second
segment's plain offset has been rewritten to 100. -/
def exCommittedSegDB : DBState :=
  ⟨[exCommittedSegRow], [exSeg 0 100, { exSeg 1 50 with plainOffset := 100 }]⟩

/-- A committed row at version 1 carrying an active compliance retention
until time 100. -/
def exRetRow : ObjRow := { exPendingRow with
  version := 1
  status := .committedVersioned
  zombieDeletionDeadline := none
  retention := ⟨.compliance, 100⟩ }

/-- A database holding just the retained committed row. -/
def exRetDB : DBState := ⟨[exRetRow], []⟩

/-- A retention update keeping the same compliance retain-until 100. -/
def exRetOptsEq : SetObjectExactVersionRetentionOpts :=
  ⟨1, [98], [107], 1, ⟨.compliance, 100⟩⟩

/-- A retention update shortening the compliance retain-until to 90. -/
def exRetOptsLess : SetObjectExactVersionRetentionOpts :=
  ⟨1, [98], [107], 1, ⟨.compliance, 90⟩⟩

/-- A last-committed retention update keeping the same retain-until 100. -/
def exRetLastOptsEq : SetObjectLastCommittedRetentionOpts :=
  ⟨1, [98], [107], ⟨.compliance, 100⟩⟩

/-- A begin-object request for a fresh location. -/
def exBeginOpts : BeginObjectNextVersionOpts := {
  stream := ⟨1, [98], [107], 0, 9⟩
  expiresAt := none
  zombieDeletionDeadline := none
  userData := ⟨[], [], [], []⟩
  encryption := ⟨1, 256⟩
  retention := ⟨.noRetention, 0⟩
  legalHold := false }

/-- A remote-segment commit request for the pending row, with three pieces
meeting the optimal-shares bound. -/
def exCommitSegOpts : CommitSegmentOpts := {
  stream := ⟨1, [98], [107], 5, 9⟩
  position := ⟨0, 0⟩
  rootPieceID := 3
  expiresAt := none
  encryptedKeyNonce := [1]
  encryptedKey := [2]
  plainOffset := 0
  plainSize := 100
  encryptedSize := 116
  encryptedETag := []
  redundancy := ⟨1, 256, 1, 2, 3, 4⟩
  pieces := [⟨0, 10⟩, ⟨1, 11⟩, ⟨2, 12⟩]
  placement := 0 }

/-- The same request with only two pieces, below the optimal shares value 3. -/
def exCommitSegOptsShort : CommitSegmentOpts :=
  { exCommitSegOpts with pieces := [⟨0, 10⟩, ⟨1, 11⟩] }

/-- A stored remote segment whose alias pieces are those of `exNewPieces`. -/
def exRepairSeg : SegRow := exSeg 0 100

/-- The piece set currently stored on `exRepairSeg`. -/
def exStoredPieces : Pieces := [⟨0, 10⟩, ⟨1, 11⟩, ⟨2, 12⟩]

/-- A different (older) piece set, not the stored one. -/
def exOldPieces : Pieces := [⟨0, 10⟩, ⟨1, 20⟩, ⟨2, 12⟩]

/-- A piece-replacement request whose expected old set differs from the
stored set while the requested new set equals the stored set. -/
def exRepairOpts : UpdateSegmentPiecesOpts := {
  streamID := 9
  position := ⟨0, 0⟩
  oldPieces := exOldPieces
  newRedundancy := ⟨1, 256, 1, 2, 3, 4⟩
  newPieces := exStoredPieces
  newRepairedAt := none }

/-- A piece-replacement request whose expected old set matches the stored set
and which installs a genuinely new set. -/
def exRepairOptsFresh : UpdateSegmentPiecesOpts := {
  streamID := 9
  position := ⟨0, 0⟩
  oldPieces := exStoredPieces
  newRedundancy := ⟨1, 256, 1, 2, 3, 4⟩
  newPieces := exOldPieces
  newRepairedAt := some 7 }

/-- The same fresh replacement with only one new piece, below the repair
shares value 2. -/
def exRepairOptsShort : UpdateSegmentPiecesOpts :=
  { exRepairOptsFresh with newPieces := [⟨0, 10⟩] }

/-- A replacement whose old and new sets both differ from the stored set. -/
def exRepairOptsBad : UpdateSegmentPiecesOpts :=
  { exRepairOptsFresh with oldPieces := [⟨0, 33⟩, ⟨1, 34⟩] }

/-- The stored row after the fresh replacement succeeded. -/
def exRepairSeg2 : SegRow := repairUpdatedRow exRepairSeg exRepairOptsFresh

/-- An inline segment row at the repair location: no stored remote piece
set (`remote_alias_pieces` NULL). -/
def exInlineSeg : SegRow := { exRepairSeg with remoteAliasPieces := none }

/-! ## Helper lemmas -/

theorem objectStreamVerify_invalid {s : ObjectStream} {e : ErrKind}
    (h : objectStreamVerify s = some e) : e = .invalidRequest := by
  unfold objectStreamVerify at h
  repeat' split at h
  all_goals simp_all

theorem piecesVerifyGo_invalid {cur : Piece} {ps : Pieces} {e : ErrKind}
    (h : piecesVerify.piecesVerifyGo cur ps = some e) : e = .invalidRequest := by
  induction ps generalizing cur with
  | nil => simp [piecesVerify.piecesVerifyGo] at h
  | cons q rest ih =>
    unfold piecesVerify.piecesVerifyGo at h
    split at h
    · simp_all
    · exact ih h

theorem piecesVerify_invalid {ps : Pieces} {e : ErrKind}
    (h : piecesVerify ps = some e) : e = .invalidRequest := by
  cases ps with
  | nil => simp [piecesVerify] at h; simp [h]
  | cons p rest => exact piecesVerifyGo_invalid h

theorem finalizeObjectCommit_ok_fields {db : DBState} {o : CommitObjectOpts}
    {ns : ObjectStatus} {nv : Version} {sc : Nat} {tp te fs : Int} {obj : ObjRow}
    {db' : DBState}
    (h : finalizeObjectCommit db o ns nv sc tp te fs = .ok (obj, db')) :
    obj.version = nv ∧ obj.status = ns ∧ obj.fixedSegmentSize = fs ∧
      obj.totalPlainSize = tp ∧ obj.totalEncryptedSize = te := by
  unfold finalizeObjectCommit at h
  repeat' split at h
  all_goals try exact Except.noConfusion h
  all_goals
    simp only [Except.ok.injEq, Prod.mk.injEq] at h
  all_goals
    obtain ⟨hrow, _⟩ := h
  all_goals
    subst hrow
  all_goals
    exact ⟨rfl, rfl, rfl, rfl, rfl⟩

theorem precommitConstraint_highest {db : DBState} {proj : Nat} {bucket objKey : Key}
    {o : PrecommitOpts} {now : Int} {pre : PrecommitResult} {db2 : DBState}
    (h : precommitConstraint db proj bucket objKey o now = .ok (pre, db2)) :
    pre.highestVersion = highestVersionAt db.objects proj bucket objKey := by
  unfold precommitConstraint at h
  simp only [] at h
  repeat' split at h
  all_goals try exact Except.noConfusion h
  all_goals
    simp only [Except.ok.injEq, Prod.mk.injEq] at h
  all_goals
    rw [← h.1]
  all_goals rfl

theorem commitObject_ok_shape {cfg : DBConfig} {db : DBState} {now : Int}
    {o : CommitObjectOpts} {obj : ObjRow} {db' : DBState}
    (h : commitObject cfg db now o = .ok (obj, db')) :
    obj.version = commitObjectNextVersion o.stream.version
      (highestVersionAt db.objects o.stream.projectID o.stream.bucket o.stream.objectKey) ∧
    obj.fixedSegmentSize = fixedSegmentSizeCalc
      (computeOffsets 0 (fetchSegmentsForCommit db.segments o.stream.streamID)) := by
  unfold commitObject at h
  split at h
  · exact Except.noConfusion h
  · simp only [] at h
    split at h
    · exact Except.noConfusion h
    · try simp only [] at h
      split at h
      · exact Except.noConfusion h
      · rename_i pre db2 heq
        have hf := finalizeObjectCommit_ok_fields h
        have hh := precommitConstraint_highest heq
        exact ⟨by rw [hf.1, hh], hf.2.2.1⟩

/-! ## Claim C1 -/

/-- Claim C1 counterexample: a successful CommitObject whose caller-supplied
version 5 equals the precommit highest version 5 commits at version 5, while
max(caller, highest + 1) would be 6. -/
theorem commitObject_version_max_counterexample :
    commitObject exCfg exCommitDB 0 exCommitOpts = .ok (exCommittedRow, exCommittedDB) ∧
    highestVersionAt exCommitDB.objects 1 [98] [107] = 5 ∧
    exCommittedRow.version = 5 ∧ max (5 : Int) (5 + 1) = 6 := by decide

/-- Claim C1 (amended): for every successful CommitObject the committed
object's version equals the caller-supplied version when that is at least
the precommit highest version, and highest version + 1 when it is strictly
below; in particular, when the caller-supplied version equals the highest
version the committed version is the caller-supplied version itself, not
highest + 1. -/
theorem commitObject_version_eq (cfg : DBConfig) (db : DBState) (now : Int)
    (o : CommitObjectOpts) (obj : ObjRow) (db' : DBState)
    (h : commitObject cfg db now o = .ok (obj, db')) :
    obj.version =
      (if o.stream.version <
          highestVersionAt db.objects o.stream.projectID o.stream.bucket o.stream.objectKey
       then highestVersionAt db.objects o.stream.projectID o.stream.bucket
          o.stream.objectKey + 1
       else o.stream.version) :=
  (commitObject_ok_shape h).1

/-- Witness for the amended claim C1, at the concrete commit instance. -/
theorem commitObject_version_eq_witness :
    exCommittedRow.version =
      (if exCommitOpts.stream.version <
          highestVersionAt exCommitDB.objects exCommitOpts.stream.projectID
            exCommitOpts.stream.bucket exCommitOpts.stream.objectKey
       then highestVersionAt exCommitDB.objects exCommitOpts.stream.projectID
          exCommitOpts.stream.bucket exCommitOpts.stream.objectKey + 1
       else exCommitOpts.stream.version) :=
  commitObject_version_eq exCfg exCommitDB 0 exCommitOpts exCommittedRow exCommittedDB
    (by decide)

/-! ## Claim C2 -/

theorem verifyWithoutStatus_active {info : PreUpdateRetentionInfo} {newR : Retention}
    {now : Int} (hexp : info.expiresAt = none) (hret : info.retention.verifyB = none)
    (hact : info.retention.activeAt now = true) :
    verifyWithoutStatus info newR now =
      (if !newR.enabledB then some .objectLock
       else if newR.retainUntil < info.retention.retainUntil then some .objectLock
       else none) := by
  unfold verifyWithoutStatus
  rw [hexp, hret]
  simp [hact]

/-- Claim C2 counterexample: on a committed object carrying an active
compliance retention until time 100, setting a retention whose retain-until
equals the current 100 does not fail with object-lock as the claim requires:
both setters succeed and leave the row as it was. -/
theorem setRetention_equal_counterexample :
    exRetRow.retention.activeAt 50 = true ∧
    exRetOptsEq.retention.retainUntil = exRetRow.retention.retainUntil ∧
    setObjectExactVersionRetention exRetDB exRetOptsEq 50 = .ok exRetDB ∧
    setObjectLastCommittedRetention exRetDB exRetLastOptsEq 50 = .ok exRetDB := by decide

/-- Claim C2 (amended): for every object with an active retention (and no
expiry), SetObjectExactVersionRetention and SetObjectLastCommittedRetention
fail with the object-lock kind exactly when the new retain-until is strictly
less than the current one or the new retention is disabled; a new retain-until
equal to the current one passes the object-lock check and the update
succeeds. -/
theorem setRetention_shorten_rules (now : Int) :
    (∀ (db : DBState) (o : SetObjectExactVersionRetentionOpts) (row : ObjRow),
      db.objects.find? (fun r =>
          r.atLocation o.projectID o.bucket o.objectKey && r.version == o.version) = some row →
      setExactRetentionOptsVerify o = none →
      row.status.isCommitted = true →
      row.expiresAt = none →
      row.retention.verifyB = none →
      row.retention.activeAt now = true →
      ((o.retention.retainUntil < row.retention.retainUntil ∨ o.retention.enabledB = false →
          setObjectExactVersionRetention db o now = .error .objectLock) ∧
        (o.retention.retainUntil = row.retention.retainUntil → o.retention.enabledB = true →
          ∃ db2, setObjectExactVersionRetention db o now = .ok db2))) ∧
    (∀ (db : DBState) (o : SetObjectLastCommittedRetentionOpts) (row : ObjRow),
      objectLocationVerify o.projectID o.bucket o.objectKey = none →
      o.retention.verifyB = none →
      lastCommittedVersionRow db.objects o.projectID o.bucket o.objectKey = some row →
      row.expiresAt = none →
      row.retention.verifyB = none →
      row.retention.activeAt now = true →
      ((o.retention.retainUntil < row.retention.retainUntil ∨ o.retention.enabledB = false →
          setObjectLastCommittedRetention db o now = .error .objectLock) ∧
        (o.retention.retainUntil = row.retention.retainUntil → o.retention.enabledB = true →
          ∃ db2, setObjectLastCommittedRetention db o now = .ok db2))) := by
  constructor
  · intro db o row hfind hverify hcomm hexp hret hact
    have hv : preUpdateVerify ⟨row.status, row.expiresAt, row.retention⟩ o.retention now =
        verifyWithoutStatus ⟨row.status, row.expiresAt, row.retention⟩ o.retention now := by
      unfold preUpdateVerify
      simp [hcomm]
    constructor
    · intro hlt
      unfold setObjectExactVersionRetention
      simp only [hverify, hfind]
      rw [hv, verifyWithoutStatus_active hexp hret hact]
      rcases hlt with h | h
      · by_cases he : o.retention.enabledB = true
        · simp [he, h]
        · simp [Bool.eq_false_iff.mpr he]
      · simp [h]
    · intro heq hen
      unfold setObjectExactVersionRetention
      simp only [hverify, hfind]
      rw [hv, verifyWithoutStatus_active hexp hret hact]
      rw [heq]
      simp [hen]
  · intro db o row hloc hnewret hfind hexp hret hact
    constructor
    · intro hlt
      unfold setObjectLastCommittedRetention
      simp only [hloc, hnewret, hfind]
      rw [verifyWithoutStatus_active hexp hret hact]
      rcases hlt with h | h
      · by_cases he : o.retention.enabledB = true
        · simp [he, h]
        · simp [Bool.eq_false_iff.mpr he]
      · simp [h]
    · intro heq hen
      unfold setObjectLastCommittedRetention
      simp only [hloc, hnewret, hfind]
      rw [verifyWithoutStatus_active hexp hret hact]
      rw [heq]
      simp [hen]

/-- Witness for the amended claim C2: the concrete shortening update fails
with object-lock, and the concrete equal update succeeds, on the retained
row. -/
theorem setRetention_shorten_rules_witness :
    setObjectExactVersionRetention exRetDB exRetOptsLess 50 = .error .objectLock ∧
    ∃ db2, setObjectLastCommittedRetention exRetDB exRetLastOptsEq 50 = .ok db2 := by
  have h := setRetention_shorten_rules 50
  refine ⟨(h.1 exRetDB exRetOptsLess exRetRow (by decide) (by decide) (by decide)
    (by decide) (by decide) (by decide)).1 (Or.inl (by decide)), ?_⟩
  exact (h.2 exRetDB exRetLastOptsEq exRetRow (by decide) (by decide) (by decide)
    (by decide) (by decide) (by decide)).2 (by decide) (by decide)

/-! ## Claim C3 -/

theorem fixedSegGo_step (s : SegRow) (rest : List SegRow) (fss : Int) (i n : Nat) :
    fixedSegGo (s :: rest) fss i n =
      (if s.position.part != 0 || s.position.index != i then -1
       else if i + 1 < n ∧ s.plainSize ≠ fss then -1
       else fixedSegGo rest fss (i + 1) n) := rfl

theorem fixedSegGo_spec (l : List SegRow) (fss : Int) (i : Nat) :
    fixedSegGo l fss i (i + l.length) =
      (if (contigFromB i (l.map (fun s => s.position)) &&
            nonLastAllSizeB fss (l.map (fun s => s.plainSize))) = true
       then fss else -1) := by
  induction l generalizing i with
  | nil => simp [fixedSegGo, contigFromB, nonLastAllSizeB]
  | cons s rest ih =>
    rw [fixedSegGo_step]
    by_cases hp : (s.position.part == 0 && s.position.index == i) = true
    · obtain ⟨hp1, hp2⟩ : (s.position.part == 0) = true ∧ (s.position.index == i) = true := by simpa using hp
      have hchk : ¬ ((s.position.part != 0 || s.position.index != i) = true) := by
        simp [bne, hp1, hp2]
      rw [if_neg hchk]
      cases rest with
      | nil =>
        have hlt : ¬ (i + 1 < i + [s].length ∧ s.plainSize ≠ fss) := by simp
        rw [if_neg hlt]
        simp [fixedSegGo, contigFromB, nonLastAllSizeB, hp1, hp2]
      | cons t rs =>
        by_cases hsz : s.plainSize = fss
        · have hc2 : ¬ (i + 1 < i + (s :: t :: rs).length ∧ s.plainSize ≠ fss) := by
            simp [hsz]
          rw [if_neg hc2]
          have hn : i + (s :: t :: rs).length = (i + 1) + (t :: rs).length := by
            simp only [List.length_cons]; omega
          rw [hn, ih (i + 1)]
          simp only [List.map_cons, contigFromB, nonLastAllSizeB, hp1, hp2, hsz]
          simp
        · have hc2 : i + 1 < i + (s :: t :: rs).length ∧ s.plainSize ≠ fss :=
            ⟨by simp only [List.length_cons]; omega, hsz⟩
          rw [if_pos hc2]
          have hns : nonLastAllSizeB fss ((s :: t :: rs).map (fun u => u.plainSize)) =
              false := by
            simp [nonLastAllSizeB, hsz]
          rw [hns]
          simp
    · have hchk : (s.position.part != 0 || s.position.index != i) = true := by
        cases h1 : (s.position.part == 0) with
        | false => simp [bne, h1]
        | true =>
          cases h2 : (s.position.index == i) with
          | false => simp [bne, h2]
          | true => exact absurd (by rw [h1, h2]; rfl) hp
      rw [if_pos hchk]
      have hcf : contigFromB i ((s :: rest).map (fun u => u.position)) = false := by
        simp only [List.map_cons, contigFromB]
        rw [Bool.eq_false_iff.mpr hp]
        rfl
      rw [hcf]
      simp

theorem fixedSegmentSizeCalc_spec (l : List SegRow) (hne : l ≠ []) :
    fixedSegmentSizeCalc l =
      (if (contigFromB 0 (l.map (fun s => s.position)) &&
            nonLastAllSizeB (headPlainSizeOf l) (l.map (fun s => s.plainSize))) = true
       then headPlainSizeOf l else -1) := by
  cases l with
  | nil => exact absurd rfl hne
  | cons f rest =>
    have h := fixedSegGo_spec (f :: rest) f.plainSize 0
    simp only [List.length_cons, Nat.zero_add] at h
    simpa [fixedSegmentSizeCalc, headPlainSizeOf] using h

theorem computeOffsets_map_position (off : Int) (l : List SegRow) :
    (computeOffsets off l).map (fun s => s.position) = l.map (fun s => s.position) := by
  induction l generalizing off with
  | nil => rfl
  | cons s rest ih => simp [computeOffsets, ih]

theorem computeOffsets_map_plainSize (off : Int) (l : List SegRow) :
    (computeOffsets off l).map (fun s => s.plainSize) = l.map (fun s => s.plainSize) := by
  induction l generalizing off with
  | nil => rfl
  | cons s rest ih => simp [computeOffsets, ih]

theorem computeOffsets_headPlainSize (off : Int) (l : List SegRow) :
    headPlainSizeOf (computeOffsets off l) = headPlainSizeOf l := by
  cases l <;> rfl

theorem computeOffsets_ne_nil {off : Int} {l : List SegRow} (h : l ≠ []) :
    computeOffsets off l ≠ [] := by
  cases l with
  | nil => exact absurd rfl h
  | cons a t => simp [computeOffsets]

/-- Claim C3 (confirmed): for every successful CommitObject over a non-empty
segment list, the stored fixed segment size equals the plain size shared by
all non-final segments (the first segment's plain size) when the positions
form the contiguous (part 0, index 0), (part 0, index 1), ... sequence and
every segment except the last shares that plain size; in every other case —
a gap, a nonzero part, or differing sizes among non-last segments — it
equals -1. -/
theorem commitObject_fixedSegmentSize (cfg : DBConfig) (db : DBState) (now : Int)
    (o : CommitObjectOpts) (obj : ObjRow) (db' : DBState)
    (h : commitObject cfg db now o = .ok (obj, db'))
    (hne : fetchSegmentsForCommit db.segments o.stream.streamID ≠ []) :
    ((contigFromB 0 ((fetchSegmentsForCommit db.segments o.stream.streamID).map
          (fun s => s.position)) &&
        nonLastAllSizeB
          (headPlainSizeOf (fetchSegmentsForCommit db.segments o.stream.streamID))
          ((fetchSegmentsForCommit db.segments o.stream.streamID).map
            (fun s => s.plainSize))) = true →
      obj.fixedSegmentSize =
        headPlainSizeOf (fetchSegmentsForCommit db.segments o.stream.streamID)) ∧
    ((contigFromB 0 ((fetchSegmentsForCommit db.segments o.stream.streamID).map
          (fun s => s.position)) &&
        nonLastAllSizeB
          (headPlainSizeOf (fetchSegmentsForCommit db.segments o.stream.streamID))
          ((fetchSegmentsForCommit db.segments o.stream.streamID).map
            (fun s => s.plainSize))) = false →
      obj.fixedSegmentSize = -1) := by
  have hs := (commitObject_ok_shape h).2
  rw [fixedSegmentSizeCalc_spec _ (computeOffsets_ne_nil hne), computeOffsets_map_position,
    computeOffsets_map_plainSize, computeOffsets_headPlainSize] at hs
  constructor <;> intro hc <;> rw [hs] <;> simp [hc]

/-- Witness for claim C3: committing the two-segment stream with plain sizes
100 and 50 at positions (0,0) and (0,1) stores fixed segment size 100. -/
theorem commitObject_fixedSegmentSize_witness :
    ((contigFromB 0 ((fetchSegmentsForCommit exCommitSegDB.segments
          exCommitOpts.stream.streamID).map (fun s => s.position)) &&
        nonLastAllSizeB
          (headPlainSizeOf (fetchSegmentsForCommit exCommitSegDB.segments
            exCommitOpts.stream.streamID))
          ((fetchSegmentsForCommit exCommitSegDB.segments
            exCommitOpts.stream.streamID).map (fun s => s.plainSize))) = true →
      exCommittedSegRow.fixedSegmentSize =
        headPlainSizeOf (fetchSegmentsForCommit exCommitSegDB.segments
          exCommitOpts.stream.streamID)) ∧
    ((contigFromB 0 ((fetchSegmentsForCommit exCommitSegDB.segments
          exCommitOpts.stream.streamID).map (fun s => s.position)) &&
        nonLastAllSizeB
          (headPlainSizeOf (fetchSegmentsForCommit exCommitSegDB.segments
            exCommitOpts.stream.streamID))
          ((fetchSegmentsForCommit exCommitSegDB.segments
            exCommitOpts.stream.streamID).map (fun s => s.plainSize))) = false →
      exCommittedSegRow.fixedSegmentSize = -1) :=
  commitObject_fixedSegmentSize exCfg exCommitSegDB 0 exCommitOpts exCommittedSegRow
    exCommittedSegDB (by decide) (by decide)

/-! ## Claim C4 -/

theorem le_foldl_max_init (l : List Int) (a : Int) : a ≤ l.foldl max a := by
  induction l generalizing a with
  | nil => exact le_refl a
  | cons b t ih => exact le_trans (le_max_left a b) (ih (max a b))

theorem le_foldl_max_mem (l : List Int) (a : Int) (x : Int) (hx : x ∈ l) :
    x ≤ l.foldl max a := by
  induction l generalizing a with
  | nil => exact absurd hx (List.not_mem_nil x)
  | cons b t ih =>
    rcases List.mem_cons.mp hx with h | h
    · subst h
      exact le_trans (le_max_right a x) (le_foldl_max_init t (max a x))
    · exact ih (max a b) h

theorem sqlVersion_gt (objects : List ObjRow) (proj : Nat) (bucket objKey : Key)
    (r : ObjRow) (hr : r ∈ objects) (hloc : r.atLocation proj bucket objKey = true) :
    r.version < beginObjectNextVersionSQLVersion objects proj bucket objKey := by
  unfold beginObjectNextVersionSQLVersion
  have hmem : r.version ∈ (objects.filter (fun x => x.atLocation proj bucket objKey)).map
      (fun x => x.version) :=
    List.mem_map_of_mem _ (List.mem_filter.mpr ⟨hr, hloc⟩)
  cases hl : (objects.filter (fun x => x.atLocation proj bucket objKey)).map
      (fun x => x.version) with
  | nil => rw [hl] at hmem; exact absurd hmem (List.not_mem_nil _)
  | cons m t =>
    rw [hl] at hmem
    have hle : r.version ≤ t.foldl max m := by
      rcases List.mem_cons.mp hmem with h | h
      · rw [h]; exact le_foldl_max_init t m
      · exact le_foldl_max_mem t m _ h
    have hm : (m :: t).max? = some (t.foldl max m) := rfl
    rw [hm]
    show r.version < t.foldl max m + 1
    exact Int.lt_add_one_iff.mpr hle

/-- Claim C4 (confirmed): for any (project, bucket, key), a successful
BeginObjectNextVersion inserts a pending row whose version is
coalesce(max(version) + 1, 1) over that location; the returned version is
strictly greater than every version already present at the location and
equals 1 when no row exists there. -/
theorem beginObjectNextVersion_version (db : DBState) (now : Int)
    (o : BeginObjectNextVersionOpts)
    (hv : beginObjectNextVersionVerify o = none) :
    beginObjectNextVersion db now o =
      .ok (beginObjectInsertedRow db.objects now o,
        { db with objects := db.objects ++ [beginObjectInsertedRow db.objects now o] }) ∧
    (beginObjectInsertedRow db.objects now o).status = .pending ∧
    (beginObjectInsertedRow db.objects now o).version =
      beginObjectNextVersionSQLVersion db.objects o.stream.projectID o.stream.bucket
        o.stream.objectKey ∧
    (∀ r ∈ db.objects,
      r.atLocation o.stream.projectID o.stream.bucket o.stream.objectKey = true →
      r.version < (beginObjectInsertedRow db.objects now o).version) ∧
    (db.objects.filter (fun r =>
        r.atLocation o.stream.projectID o.stream.bucket o.stream.objectKey) = [] →
      (beginObjectInsertedRow db.objects now o).version = 1) := by
  refine ⟨?_, rfl, rfl, ?_, ?_⟩
  · unfold beginObjectNextVersion
    rw [hv]
  · intro r hr hloc
    exact sqlVersion_gt db.objects _ _ _ r hr hloc
  · intro hempty
    show beginObjectNextVersionSQLVersion db.objects o.stream.projectID o.stream.bucket
      o.stream.objectKey = 1
    unfold beginObjectNextVersionSQLVersion
    rw [hempty]
    rfl

/-- Witness for claim C4: beginning an object on an empty database assigns
version 1 and inserts the pending row. -/
theorem beginObjectNextVersion_version_witness :
    beginObjectNextVersion ⟨[], []⟩ 0 exBeginOpts =
      .ok (beginObjectInsertedRow [] 0 exBeginOpts,
        { (⟨[], []⟩ : DBState) with
          objects := [] ++ [beginObjectInsertedRow [] 0 exBeginOpts] }) ∧
    (beginObjectInsertedRow [] 0 exBeginOpts).version = 1 := by
  have h := beginObjectNextVersion_version ⟨[], []⟩ 0 exBeginOpts (by decide)
  exact ⟨h.1, h.2.2.2.2 (by decide)⟩

/-! ## Claims C5 and C10 -/

theorem map_id_on {a : Type} (l : List a) (f : a → a) (h : ∀ x ∈ l, f x = x) :
    l.map f = l := by
  induction l with
  | nil => rfl
  | cons x t ih =>
    rw [List.map_cons, h x (List.mem_cons_self x t),
      ih (fun y hy => h y (List.mem_cons_of_mem x hy))]

theorem updateSegmentPieces_reduce (segs : List SegRow) (o : UpdateSegmentPiecesOpts)
    (s : SegRow)
    (hs0 : (o.streamID == 0) = false)
    (hold : piecesVerify o.oldPieces = none)
    (hrz : o.newRedundancy.isZero = false)
    (hcnt : ¬ (o.newPieces.length < o.newRedundancy.repairShares))
    (hnew : piecesVerify o.newPieces = none)
    (hfind : segs.find? (fun t => t.streamID == o.streamID && t.position == o.position) =
      some s) :
    updateSegmentPieces segs o =
      (match (if s.remoteAliasPieces == some (piecesToAliases o.oldPieces)
            then repairUpdatedRow s o else s).remoteAliasPieces with
       | none => .error .segmentNotFound
       | some rp =>
         if (rp == piecesToAliases o.newPieces) = true
         then .ok (segs.map (fun t =>
            if t.streamID == o.streamID && t.position == o.position
            then (if s.remoteAliasPieces == some (piecesToAliases o.oldPieces)
                  then repairUpdatedRow s o else s)
            else t))
         else .error .valueChanged) := by
  unfold updateSegmentPieces updateSegmentPiecesAdapter
  simp only [hs0, hold, hrz, hnew, if_neg hcnt, hfind]
  rfl

/-- Claim C5 counterexample: with the stored piece set differing from the
caller-supplied old set but equal to the requested new set, the call
succeeds and leaves the table unchanged, while the claim requires a
value-changed failure whenever the stored set differs from the old set. -/
theorem updateSegmentPieces_valueChanged_counterexample :
    exRepairSeg.remoteAliasPieces ≠ some (piecesToAliases exRepairOpts.oldPieces) ∧
    updateSegmentPieces [exRepairSeg] exRepairOpts = .ok [exRepairSeg] := by decide

/-- Claim C5 (amended): for every UpdateSegmentPieces call on an existing
segment, the row is left unchanged unless the stored piece set equals the
caller-supplied old set.  A stored NULL piece set (an inline segment) is
left unchanged and reported as segment-not-found via the nil-result check.
A stored piece set differing from the old set is returned unchanged and the
call fails with value-changed unless it already equals the requested new
set, in which case the call succeeds.  When the stored set matches the old
set, the row is updated to the new pieces, new redundancy and (if supplied)
new repaired-at. -/
theorem updateSegmentPieces_conditional (segs : List SegRow)
    (o : UpdateSegmentPiecesOpts) (s : SegRow)
    (hs0 : (o.streamID == 0) = false)
    (hold : piecesVerify o.oldPieces = none)
    (hrz : o.newRedundancy.isZero = false)
    (hcnt : ¬ (o.newPieces.length < o.newRedundancy.repairShares))
    (hnew : piecesVerify o.newPieces = none)
    (hfind : segs.find? (fun t => t.streamID == o.streamID && t.position == o.position) =
      some s)
    (hu : ∀ t ∈ segs, (t.streamID == o.streamID && t.position == o.position) = true →
      t = s) :
    (s.remoteAliasPieces = some (piecesToAliases o.oldPieces) →
      updateSegmentPieces segs o = .ok (segs.map (fun t =>
        if t.streamID == o.streamID && t.position == o.position
        then repairUpdatedRow s o else t))) ∧
    (s.remoteAliasPieces = none →
      updateSegmentPieces segs o = .error .segmentNotFound) ∧
    (∀ stored, s.remoteAliasPieces = some stored →
      stored ≠ piecesToAliases o.oldPieces →
      (stored ≠ piecesToAliases o.newPieces →
        updateSegmentPieces segs o = .error .valueChanged) ∧
      (stored = piecesToAliases o.newPieces →
        updateSegmentPieces segs o = .ok segs)) := by
  have hr := updateSegmentPieces_reduce segs o s hs0 hold hrz hcnt hnew hfind
  refine ⟨?_, ?_, ?_⟩
  · intro hmatch
    rw [hr]
    have h1 : (s.remoteAliasPieces == some (piecesToAliases o.oldPieces)) = true := by
      simp [hmatch]
    have h2 : (repairUpdatedRow s o).remoteAliasPieces =
        some (piecesToAliases o.newPieces) := by
      simp [repairUpdatedRow]
    simp only [h1, if_true, h2]
    rw [if_pos (by simp)]
  · intro hnone
    have h1 : ¬ ((s.remoteAliasPieces == some (piecesToAliases o.oldPieces)) = true) := by
      simp [hnone]
    rw [hr, if_neg h1, hnone]
  · intro stored hstored hdiff
    have h1 : ¬ ((s.remoteAliasPieces == some (piecesToAliases o.oldPieces)) = true) := by
      simp [hstored, hdiff]
    constructor
    · intro hne
      rw [hr, if_neg h1, hstored]
      simp only []
      rw [if_neg (by simp [hne])]
    · intro heq
      rw [hr, if_neg h1, hstored]
      simp only [heq]
      rw [if_pos (by simp)]
      congr 1
      apply map_id_on
      intro t ht
      by_cases hm : (t.streamID == o.streamID && t.position == o.position) = true
      · simp [hm, (hu t ht hm).symm]
      · simp [hm]

/-- Witness for the amended claim C5: the fresh replacement whose old set
matches the stored set updates the row; the replacement whose old and new
sets both differ from the stored set fails with value-changed; and the same
replacement against an inline segment (NULL stored piece set) fails with
segment-not-found. -/
theorem updateSegmentPieces_conditional_witness :
    updateSegmentPieces [exRepairSeg] exRepairOptsFresh =
      .ok ([exRepairSeg].map (fun t =>
        if t.streamID == exRepairOptsFresh.streamID &&
            t.position == exRepairOptsFresh.position
        then repairUpdatedRow exRepairSeg exRepairOptsFresh else t)) ∧
    updateSegmentPieces [exRepairSeg] exRepairOptsBad = .error .valueChanged ∧
    updateSegmentPieces [exInlineSeg] exRepairOptsFresh = .error .segmentNotFound := by
  refine ⟨?_, ?_, ?_⟩
  · exact (updateSegmentPieces_conditional [exRepairSeg] exRepairOptsFresh exRepairSeg
      (by decide) (by decide) (by decide) (by decide) (by decide) (by decide)
      (by decide)).1 (by decide)
  · exact (((updateSegmentPieces_conditional [exRepairSeg] exRepairOptsBad exRepairSeg
      (by decide) (by decide) (by decide) (by decide) (by decide) (by decide)
      (by decide)).2.2 (piecesToAliases exStoredPieces) (by decide) (by decide)).1
      (by decide))
  · exact (updateSegmentPieces_conditional [exInlineSeg] exRepairOptsFresh exInlineSeg
      (by decide) (by decide) (by decide) (by decide) (by decide) (by decide)
      (by decide)).2.1 (by decide)

/-- Claim C10 (confirmed): UpdateSegmentPieces succeeds whenever the stored
piece set already equals the requested new set — even when it differs from
the supplied old set, in which case the table is left untouched — so
repeating an already-successful piece replacement with identical arguments
succeeds: repair is idempotent. -/
theorem updateSegmentPieces_idempotent (segs : List SegRow)
    (o : UpdateSegmentPiecesOpts) (s : SegRow)
    (hs0 : (o.streamID == 0) = false)
    (hold : piecesVerify o.oldPieces = none)
    (hrz : o.newRedundancy.isZero = false)
    (hcnt : ¬ (o.newPieces.length < o.newRedundancy.repairShares))
    (hnew : piecesVerify o.newPieces = none)
    (hfind : segs.find? (fun t => t.streamID == o.streamID && t.position == o.position) =
      some s)
    (hu : ∀ t ∈ segs, (t.streamID == o.streamID && t.position == o.position) = true →
      t = s)
    (hstored : s.remoteAliasPieces = some (piecesToAliases o.newPieces)) :
    (∃ segs2, updateSegmentPieces segs o = .ok segs2) ∧
    (s.remoteAliasPieces ≠ some (piecesToAliases o.oldPieces) →
      updateSegmentPieces segs o = .ok segs) := by
  have hr := updateSegmentPieces_reduce segs o s hs0 hold hrz hcnt hnew hfind
  constructor
  · by_cases hm : (s.remoteAliasPieces == some (piecesToAliases o.oldPieces)) = true
    · have h2 : (repairUpdatedRow s o).remoteAliasPieces =
          some (piecesToAliases o.newPieces) := by
        simp [repairUpdatedRow]
      apply Exists.intro
      rw [hr, if_pos hm, h2]
      simp only []
      exact if_pos (by simp)
    · apply Exists.intro
      rw [hr, if_neg hm, hstored]
      simp only []
      exact if_pos (by simp)
  · intro hdiff
    have h1 : ¬ ((s.remoteAliasPieces == some (piecesToAliases o.oldPieces)) = true) := by
      simp [hdiff]
    rw [hr, if_neg h1, hstored]
    simp only []
    rw [if_pos (by simp)]
    congr 1
    apply map_id_on
    intro t ht
    by_cases hm : (t.streamID == o.streamID && t.position == o.position) = true
    · simp [hm, (hu t ht hm).symm]
    · simp [hm]

/-- Witness for claim C10: repeating the successful fresh replacement on the
already-updated table succeeds and changes nothing. -/
theorem updateSegmentPieces_idempotent_witness :
    updateSegmentPieces [exRepairSeg2] exRepairOptsFresh = .ok [exRepairSeg2] := by
  exact (updateSegmentPieces_idempotent [exRepairSeg2] exRepairOptsFresh exRepairSeg2
    (by decide) (by decide) (by decide) (by decide) (by decide) (by decide)
    (by decide) (by decide)).2 (by decide)

/-! ## Claims C6 and C9 -/

theorem upsertSegment_at (segs : List SegRow) (row : SegRow) :
    ∀ s_ ∈ upsertSegment segs row,
      (s_.streamID == row.streamID && s_.position == row.position) = true →
      ∃ rep, s_ = { row with repairedAt := rep } := by
  intro s_ hs hmatch
  unfold upsertSegment at hs
  split at hs
  · obtain ⟨t, ht, hteq⟩ := List.mem_map.mp hs
    by_cases hm : (t.streamID == row.streamID && t.position == row.position) = true
    · rw [if_pos hm] at hteq
      exact ⟨t.repairedAt, hteq.symm⟩
    · rw [if_neg hm] at hteq
      rw [hteq] at hm
      exact absurd hmatch hm
  · rcases List.mem_append.mp hs with h | h
    · rename_i hany
      have : ∃ t ∈ segs, (t.streamID == row.streamID && t.position == row.position) = true :=
        ⟨s_, h, hmatch⟩
      rw [← List.any_eq_true] at this
      exact absurd this hany
    · rcases List.mem_singleton.mp h with h'
      refine ⟨row.repairedAt, ?_⟩
      rw [h']

theorem commitSegment_ok_shape {db : DBState} {o : CommitSegmentOpts} {db2 : DBState}
    (h : commitSegment db o = .ok db2) :
    commitSegmentChecks o = none ∧
    db.objects.any (fun r => pendingObjectMatch r o.stream) = true ∧
    db2.objects = db.objects ∧
    db2.segments = upsertSegment db.segments (newCommitSegRow o (piecesToAliases o.pieces)) := by
  unfold commitSegment at h
  split at h
  · exact Except.noConfusion h
  · rename_i hchecks
    split at h
    · rename_i hany
      simp only [Except.ok.injEq] at h
      subst h
      exact ⟨hchecks, hany, rfl, rfl⟩
    · exact Except.noConfusion h

/-- Claim C6 (confirmed): with a valid request, CommitSegment fails with the
pending-object-missing kind exactly when no object row with the request's
(project, bucket, key, version, stream) identity exists in Pending status;
otherwise it upserts the segment row keyed by (stream, position), overwriting
every data column of a pre-existing row — in particular clearing
`inline_data` — while leaving all other rows untouched.  The pending check
and the write are a single state transition, mirroring the one-statement
stream-id subquery of the SQL. -/
theorem commitSegment_pending (db : DBState) (o : CommitSegmentOpts)
    (hc : commitSegmentChecks o = none) :
    (commitSegment db o = .error .pendingObjectMissing ↔
      db.objects.any (fun r => pendingObjectMatch r o.stream) = false) ∧
    (∀ db2, commitSegment db o = .ok db2 →
      db2.objects = db.objects ∧
      db2.segments = upsertSegment db.segments
        (newCommitSegRow o (piecesToAliases o.pieces)) ∧
      (∀ s_ ∈ db2.segments,
        (s_.streamID == o.stream.streamID && s_.position == o.position) = true →
        ∃ rep, s_ = { newCommitSegRow o (piecesToAliases o.pieces) with
          repairedAt := rep }) ∧
      (∀ s_ ∈ db2.segments,
        (s_.streamID == o.stream.streamID && s_.position == o.position) = true →
        s_.inlineData = none)) := by
  constructor
  · unfold commitSegment
    rw [hc]
    cases hany : db.objects.any (fun r => pendingObjectMatch r o.stream) with
    | true => simp
    | false => simp
  · intro db2 h
    obtain ⟨_, _, hobj, hsegs⟩ := commitSegment_ok_shape h
    refine ⟨hobj, hsegs, ?_, ?_⟩
    · intro s_ hs hmatch
      rw [hsegs] at hs
      exact upsertSegment_at db.segments _ s_ hs hmatch
    · intro s_ hs hmatch
      rw [hsegs] at hs
      obtain ⟨rep, hrep⟩ := upsertSegment_at db.segments _ s_ hs hmatch
      rw [hrep]
      rfl

/-- Witness for claim C6: committing the concrete remote segment under the
pending row succeeds and the missing-pending case of the iff holds. -/
theorem commitSegment_pending_witness :
    (commitSegment exCommitDB exCommitSegOpts = .error .pendingObjectMissing ↔
      exCommitDB.objects.any (fun r => pendingObjectMatch r exCommitSegOpts.stream) =
        false) := by
  exact (commitSegment_pending exCommitDB exCommitSegOpts (by decide)).1

theorem commitSegmentChecks_some_invalid {o : CommitSegmentOpts} {e : ErrKind}
    (h : commitSegmentChecks o = some e) : e = .invalidRequest := by
  unfold commitSegmentChecks at h
  cases hs : objectStreamVerify o.stream with
  | some e' =>
    rw [hs] at h
    cases h
    exact objectStreamVerify_invalid hs
  | none =>
    rw [hs] at h
    cases hp : piecesVerify o.pieces with
    | some e' =>
      rw [hp] at h
      cases h
      exact piecesVerify_invalid hp
    | none =>
      rw [hp] at h
      repeat' split at h
      all_goals simp_all

theorem commitSegmentChecks_none_count {o : CommitSegmentOpts}
    (h : commitSegmentChecks o = none) :
    ¬ (o.pieces.length < o.redundancy.optimalShares) := by
  unfold commitSegmentChecks at h
  repeat' split at h
  all_goals simp_all

theorem updateSegmentPieces_ok_shape {segs : List SegRow} {u : UpdateSegmentPiecesOpts}
    {segs2 : List SegRow} (h : updateSegmentPieces segs u = .ok segs2) :
    ¬ (u.newPieces.length < u.newRedundancy.repairShares) ∧
    ∃ s', s'.remoteAliasPieces = some (piecesToAliases u.newPieces) ∧
      segs2 = segs.map (fun t =>
        if t.streamID == u.streamID && t.position == u.position then s' else t) := by
  unfold updateSegmentPieces at h
  by_cases h0 : (u.streamID == 0) = true
  · rw [if_pos h0] at h; exact Except.noConfusion h
  · rw [if_neg h0] at h
    cases hold : piecesVerify u.oldPieces with
    | some e => rw [hold] at h; exact Except.noConfusion h
    | none =>
      rw [hold] at h
      by_cases hrz : u.newRedundancy.isZero = true
      · rw [if_pos hrz] at h; exact Except.noConfusion h
      · rw [if_neg hrz] at h
        by_cases hcnt : u.newPieces.length < u.newRedundancy.repairShares
        · rw [if_pos hcnt] at h; exact Except.noConfusion h
        · rw [if_neg hcnt] at h
          cases hnew : piecesVerify u.newPieces with
          | some e => rw [hnew] at h; exact Except.noConfusion h
          | none =>
            rw [hnew] at h
            unfold updateSegmentPiecesAdapter at h
            cases hfind : segs.find? (fun t =>
                t.streamID == u.streamID && t.position == u.position) with
            | none => rw [hfind] at h; exact Except.noConfusion h
            | some s =>
              rw [hfind] at h
              simp only [] at h
              repeat' split at h
              all_goals try exact Except.noConfusion h
              all_goals simp only [Except.ok.injEq] at h
              all_goals subst h
              all_goals first
                | (refine ⟨hcnt, _, ?_, rfl⟩
                   rfl)
                | (rename_i hmeq hbeq hneg
                   rw [if_neg hneg] at hmeq
                   refine ⟨hcnt, _, ?_, rfl⟩
                   rw [hmeq]
                   simpa using hbeq)

/-- Claim C9 (confirmed): the piece-count lower bounds are enforced as
preconditions — CommitSegment fails with invalid-request whenever the
supplied piece count is below Redundancy.OptimalShares, and
UpdateSegmentPieces fails with invalid-request whenever the new piece count
is below NewRedundancy.RepairShares — and consequently every segment row
written by a successful CommitSegment carries at least OptimalShares pieces
and every row changed by a successful UpdateSegmentPieces carries at least
RepairShares pieces. -/
theorem pieceCountBounds (db : DBState) (o : CommitSegmentOpts)
    (segs : List SegRow) (u : UpdateSegmentPiecesOpts) :
    (o.pieces.length < o.redundancy.optimalShares →
      commitSegment db o = .error .invalidRequest) ∧
    (u.newPieces.length < u.newRedundancy.repairShares →
      updateSegmentPieces segs u = .error .invalidRequest) ∧
    (∀ db2, commitSegment db o = .ok db2 → ∀ s_ ∈ db2.segments,
      (s_.streamID == o.stream.streamID && s_.position == o.position) = true →
      ∃ ap, s_.remoteAliasPieces = some ap ∧ o.redundancy.optimalShares ≤ ap.length) ∧
    (∀ segs2, updateSegmentPieces segs u = .ok segs2 → ∀ s_ ∈ segs2, s_ ∉ segs →
      s_.remoteAliasPieces = some (piecesToAliases u.newPieces) ∧
      u.newRedundancy.repairShares ≤ (piecesToAliases u.newPieces).length) := by
  refine ⟨?_, ?_, ?_, ?_⟩
  · intro hcnt
    cases hc : commitSegmentChecks o with
    | some e =>
      unfold commitSegment
      rw [hc, commitSegmentChecks_some_invalid hc]
    | none => exact absurd hcnt (commitSegmentChecks_none_count hc)
  · intro hcnt
    unfold updateSegmentPieces
    repeat' split
    all_goals first
      | rfl
      | exact absurd hcnt (by assumption)
  · intro db2 h s_ hs hmatch
    obtain ⟨hchecks, _, _, hsegs⟩ := commitSegment_ok_shape h
    rw [hsegs] at hs
    obtain ⟨rep, hrep⟩ := upsertSegment_at db.segments _ s_ hs hmatch
    refine ⟨piecesToAliases o.pieces, by rw [hrep]; rfl, ?_⟩
    have hnb := commitSegmentChecks_none_count hchecks
    have hlen : (piecesToAliases o.pieces).length = o.pieces.length := by
      unfold piecesToAliases
      exact List.length_map _ _
    omega
  · intro segs2 h s_ hs hnotin
    obtain ⟨hcnt, s', hsp, hmap⟩ := updateSegmentPieces_ok_shape h
    rw [hmap] at hs
    obtain ⟨t, ht, hteq⟩ := List.mem_map.mp hs
    by_cases hm : (t.streamID == u.streamID && t.position == u.position) = true
    · rw [if_pos hm] at hteq
      subst hteq
      refine ⟨hsp, ?_⟩
      have hlen : (piecesToAliases u.newPieces).length = u.newPieces.length := by
        unfold piecesToAliases
        exact List.length_map _ _
      omega
    · rw [if_neg hm] at hteq
      rw [hteq] at ht
      exact absurd ht hnotin

/-- Witness for claim C9: both concrete short-piece requests fail with
invalid-request. -/
theorem pieceCountBounds_witness :
    commitSegment exCommitDB exCommitSegOptsShort = .error .invalidRequest ∧
    updateSegmentPieces [exRepairSeg] exRepairOptsShort = .error .invalidRequest := by
  have h := pieceCountBounds exCommitDB exCommitSegOptsShort [exRepairSeg] exRepairOptsShort
  exact ⟨h.1 (by decide), h.2.1 (by decide)⟩

/-! ## Listing: ordering and sorting lemmas -/

/-- Membership through sorted insertion. -/
theorem insertSorted_mem {a : Type} (le : a → a → Bool) (x y : a) (l : List a) :
    y ∈ insertSorted le x l ↔ y = x ∨ y ∈ l := by
  induction l with
  | nil => simp [insertSorted]
  | cons b t ih =>
    unfold insertSorted
    by_cases h : le x b = true
    · simp [if_pos h, List.mem_cons]
    · simp only [if_neg h, List.mem_cons, ih]
      tauto

/-- Membership through the insertion sort. -/
theorem sortByB_mem {a : Type} (le : a → a → Bool) (y : a) (l : List a) :
    y ∈ sortByB le l ↔ y ∈ l := by
  induction l with
  | nil => simp [sortByB]
  | cons b t ih => simp [sortByB, insertSorted_mem, ih]

/-- Sorted insertion preserves pairwise order for a total transitive
comparator. -/
theorem insertSorted_pairwise {a : Type} (le : a → a → Bool)
    (htot : ∀ p q : a, le p q = true ∨ le q p = true)
    (htrans : ∀ p q u : a, le p q = true → le q u = true → le p u = true)
    (x : a) (l : List a) (hl : List.Pairwise (fun p q => le p q = true) l) :
    List.Pairwise (fun p q => le p q = true) (insertSorted le x l) := by
  induction l with
  | nil => simp [insertSorted]
  | cons b t ih =>
    rcases List.pairwise_cons.mp hl with ⟨hb, ht⟩
    unfold insertSorted
    by_cases h : le x b = true
    · rw [if_pos h]
      refine List.pairwise_cons.mpr ⟨?_, hl⟩
      intro y hy
      rcases List.mem_cons.mp hy with rfl | hyt
      · exact h
      · exact htrans x b y h (hb y hyt)
    · rw [if_neg h]
      refine List.pairwise_cons.mpr ⟨?_, ih ht⟩
      intro y hy
      rcases (insertSorted_mem le x y t).mp hy with heq | hyt
      · subst heq
        rcases htot y b with h1 | h1
        · exact absurd h1 h
        · exact h1
      · exact hb y hyt

/-- The insertion sort produces a pairwise-ordered list for a total
transitive comparator. -/
theorem sortByB_pairwise {a : Type} (le : a → a → Bool)
    (htot : ∀ p q : a, le p q = true ∨ le q p = true)
    (htrans : ∀ p q u : a, le p q = true → le q u = true → le p u = true)
    (l : List a) :
    List.Pairwise (fun p q => le p q = true) (sortByB le l) := by
  induction l with
  | nil => simp [sortByB]
  | cons b t ih => exact insertSorted_pairwise le htot htrans b (sortByB le t) ih

/-- The scan order of the listing query is total. -/
theorem rowLeB_total (o : ListOpts) (p q : ListRow) :
    rowLeB o p q = true ∨ rowLeB o q p = true := by
  unfold rowLeB
  rcases lt_trichotomy p.objectKey q.objectKey with h | h | h
  · left
    split <;> simp [h]
  · rcases le_total p.version q.version with hv | hv <;> split <;> simp [h, hv]
  · right
    split <;> simp [h]

/-- The scan order of the listing query is transitive. -/
theorem rowLeB_trans (o : ListOpts) (p q u : ListRow) (h1 : rowLeB o p q = true)
    (h2 : rowLeB o q u = true) : rowLeB o p u = true := by
  unfold rowLeB at h1 h2 ⊢
  split at h1 <;>
    [skip; skip] <;>
    rename_i hasc
  · rw [if_pos hasc] at h2 ⊢
    simp only [Bool.or_eq_true, Bool.and_eq_true, beq_iff_eq, decide_eq_true_eq] at h1 h2 ⊢
    rcases h1 with h1 | ⟨h1k, h1v⟩ <;> rcases h2 with h2 | ⟨h2k, h2v⟩
    · exact Or.inl (lt_trans h1 h2)
    · exact Or.inl (lt_of_lt_of_le h1 (le_of_eq h2k))
    · exact Or.inl (lt_of_le_of_lt (le_of_eq h1k) h2)
    · exact Or.inr ⟨h1k.trans h2k, le_trans h1v h2v⟩
  · rw [if_neg hasc] at h2 ⊢
    simp only [Bool.or_eq_true, Bool.and_eq_true, beq_iff_eq, decide_eq_true_eq] at h1 h2 ⊢
    rcases h1 with h1 | ⟨h1k, h1v⟩ <;> rcases h2 with h2 | ⟨h2k, h2v⟩
    · exact Or.inl (lt_trans h1 h2)
    · exact Or.inl (lt_of_lt_of_le h1 (le_of_eq h2k))
    · exact Or.inl (lt_of_le_of_lt (le_of_eq h1k) h2)
    · exact Or.inr ⟨h1k.trans h2k, le_trans h2v h1v⟩

/-- The scan order only moves forward in keys. -/
theorem rowLeB_key_le (o : ListOpts) {p q : ListRow} (h : rowLeB o p q = true) :
    p.objectKey ≤ q.objectKey := by
  unfold rowLeB at h
  split at h <;>
    simp only [Bool.or_eq_true, Bool.and_eq_true, beq_iff_eq, decide_eq_true_eq] at h <;>
    rcases h with h | ⟨hk, _⟩ <;>
    first
      | exact le_of_lt h
      | exact le_of_eq hk

/-- In descending mode, a row strictly earlier in scan order (larger version
of the same key, or smaller key) is never at or after a later row. -/
theorem rowLeB_asymm_desc (o : ListOpts) (hva : o.versionAscending = false)
    {x y : ListRow}
    (hlt : x.objectKey < y.objectKey ∨ (x.objectKey = y.objectKey ∧ y.version < x.version))
    (hle : rowLeB o y x = true) : False := by
  unfold rowLeB at hle
  rw [hva] at hle
  simp only [Bool.false_eq_true, if_false, Bool.or_eq_true, Bool.and_eq_true, beq_iff_eq,
    decide_eq_true_eq] at hle
  rcases hlt with h | ⟨hk, hv⟩ <;> rcases hle with h2 | ⟨h2k, h2v⟩
  · exact absurd h2 (not_lt_of_gt h)
  · exact absurd h (by rw [h2k]; exact lt_irrefl _)
  · exact absurd h2 (by rw [hk]; exact lt_irrefl _)
  · exact absurd h2v (not_le_of_gt hv)

/-- An element of a sorted list scanning strictly before an element of the
`take`-limited batch is itself in the batch (descending mode). -/
theorem mem_take_of_before (o : ListOpts) (hva : o.versionAscending = false)
    {l : List ListRow} {bs : Nat} {x y : ListRow}
    (hsort : List.Pairwise (fun p q => rowLeB o p q = true) l)
    (hx : x ∈ l) (hy : y ∈ l.take bs)
    (hlt : x.objectKey < y.objectKey ∨ (x.objectKey = y.objectKey ∧ y.version < x.version)) :
    x ∈ l.take bs := by
  induction l generalizing bs with
  | nil => cases hx
  | cons a t ih =>
    cases bs with
    | zero => simp at hy
    | succ n =>
      rw [List.take_succ_cons] at hy ⊢
      rcases List.mem_cons.mp hx with rfl | hxt
      · exact List.mem_cons_self _ _
      · rcases List.mem_cons.mp hy with rfl | hyt
        · exact absurd ((List.pairwise_cons.mp hsort).1 x hxt)
            (fun hle => rowLeB_asymm_desc o hva hlt hle)
        · exact List.mem_cons_of_mem _ (ih (List.pairwise_cons.mp hsort).2 hxt hyt)

/-- In a sorted split `l1 ++ y :: l2`, an element scanning strictly before
`y` lies in `l1` (descending mode). -/
theorem mem_split_before (o : ListOpts) (hva : o.versionAscending = false)
    {l1 l2 : List ListRow} {x y : ListRow}
    (hsort : List.Pairwise (fun p q => rowLeB o p q = true) (l1 ++ y :: l2))
    (hx : x ∈ l1 ++ y :: l2)
    (hlt : x.objectKey < y.objectKey ∨ (x.objectKey = y.objectKey ∧ y.version < x.version)) :
    x ∈ l1 := by
  rcases List.mem_append.mp hx with h | h
  · exact h
  · exfalso
    have hyl2 : List.Pairwise (fun p q => rowLeB o p q = true) (y :: l2) :=
      (List.pairwise_append.mp hsort).2.1
    rcases List.mem_cons.mp h with rfl | h2
    · rcases hlt with h2 | ⟨_, h2⟩ <;> exact lt_irrefl _ h2
    · exact rowLeB_asymm_desc o hva hlt ((List.pairwise_cons.mp hyl2).1 x h2)

/-- In a pairwise-ordered list, every element is at or before the last one. -/
theorem pairwise_last_ge (o : ListOpts) {l : List ListRow} {x rl : ListRow}
    (hsort : List.Pairwise (fun p q => rowLeB o p q = true) l)
    (hlast : l.getLast? = some rl) (hx : x ∈ l) :
    x = rl ∨ rowLeB o x rl = true := by
  induction l with
  | nil => cases hx
  | cons a t ih =>
    cases t with
    | nil =>
      simp only [List.getLast?_singleton, Option.some.injEq] at hlast
      rcases List.mem_cons.mp hx with rfl | hxx
      · exact Or.inl hlast
      · cases hxx
    | cons b t2 =>
      have hlast2 : (b :: t2).getLast? = some rl := by
        rw [List.getLast?_cons_cons] at hlast
        exact hlast
      rcases List.mem_cons.mp hx with rfl | hxt
      · have hrl : rl ∈ b :: t2 := List.mem_of_getLast?_eq_some hlast2
        exact Or.inr ((List.pairwise_cons.mp hsort).1 rl hrl)
      · exact ih (List.pairwise_cons.mp hsort).2 hlast2 hxt

/-! ## Listing: key and prefix lemmas -/

/-- No key is lexicographically below the empty key. -/
theorem key_not_lt_nil (k : Key) (h : k < ([] : Key)) : False :=
  (List.Lex.not_nil_right _ _) h

/-- No nonempty key is at or below the empty key. -/
theorem key_cons_not_le_nil (a : Nat) (t : Key) (h : (a :: t : Key) ≤ []) : False :=
  not_le_of_lt (show ([] : Key) < a :: t from List.Lex.nil) h

/-- Inversion of the lexicographic order on cons cells. -/
theorem key_lt_cons_inv {c a : Nat} {k2 l : Key} (h : (c :: k2 : Key) < a :: l) :
    c < a ∨ (c = a ∧ k2 < l) := by
  have h2 : List.Lex (· < ·) (c :: k2) (a :: l) := h
  cases h2 with
  | rel hr => exact Or.inl hr
  | cons hc => exact Or.inr ⟨rfl, hc⟩

/-- Order of a shared head byte: the byte is at most the other one, and on
equal bytes the tails compare. -/
theorem key_cons_le (a c : Nat) (t k2 : Key) (h : (a :: t : Key) ≤ c :: k2) :
    a ≤ c ∧ (a = c → t ≤ k2) := by
  constructor
  · by_contra hac
    exact not_le_of_lt (show (c :: k2 : Key) < a :: t from List.Lex.rel (not_le.mp hac)) h
  · intro heq
    subst heq
    by_contra hk
    exact not_le_of_lt (show (a :: k2 : Key) < a :: t from List.Lex.cons (not_le.mp hk)) h

/-- A key strictly precedes any proper extension of itself. -/
theorem key_lt_append : ∀ (p : Key) (b : Nat) (t : Key), p < p ++ b :: t
  | [], _, _ => List.Lex.nil
  | _ :: p2, b, t => List.Lex.cons (key_lt_append p2 b t)

/-- A key is at or before any extension of itself. -/
theorem key_le_append (p t : Key) : p ≤ p ++ t := by
  cases t with
  | nil => simp
  | cons b t2 => exact le_of_lt (key_lt_append p b t2)

/-- A prefix is at or before the full key. -/
theorem isPrefix_le {p k : Key} (h : p <+: k) : p ≤ k := by
  obtain ⟨t, rfl⟩ := h
  exact key_le_append p t

/-- A prefix followed by the remaining suffix rebuilds the key. -/
theorem isPrefix_append_drop {p k : Key} (h : p <+: k) : p ++ k.drop p.length = k :=
  List.prefix_iff_eq_append.mp h

/-- A prefix with an empty prefix limit consists of maximal bytes only. -/
theorem prefixLimit_nil_all255 (p : Key) (h : prefixLimit p = []) : ∀ b ∈ p, b = 255 := by
  induction p with
  | nil => intro b hb; cases hb
  | cons a t ih =>
    unfold prefixLimit at h
    cases hpt : prefixLimit t with
    | nil =>
      simp only [hpt] at h
      by_cases ha : (a == 255) = true
      · intro b hb
        rcases List.mem_cons.mp hb with rfl | hbt
        · exact beq_iff_eq.mp ha
        · exact ih hpt b hbt
      · rw [if_neg ha] at h
        exact List.noConfusion h
    | cons d q =>
      simp only [hpt] at h
      exact List.noConfusion h

/-- A run of maximal bytes at or below a byte-bounded key is a prefix of
it. -/
theorem all255_le_prefix : ∀ (p k : Key), (∀ b ∈ p, b = 255) → (∀ b ∈ k, b < 256) →
    p ≤ k → p <+: k := by
  intro p
  induction p with
  | nil => intro k _ _ _; exact List.nil_prefix
  | cons a t ih =>
    intro k h255 hkb hle
    cases k with
    | nil => exact (key_cons_not_le_nil a t hle).elim
    | cons c k2 =>
      have ha : a = 255 := h255 a (List.mem_cons_self _ _)
      have hc : c < 256 := hkb c (List.mem_cons_self _ _)
      obtain ⟨hac, hrest⟩ := key_cons_le a c t k2 hle
      have heq : a = c := le_antisymm hac (by omega)
      rw [List.cons_prefix_cons]
      exact ⟨heq, ih k2 (fun b hb => h255 b (List.mem_cons_of_mem _ hb))
        (fun b hb => hkb b (List.mem_cons_of_mem _ hb)) (hrest heq)⟩

/-- A byte-bounded key between a prefix and its prefix limit carries that
prefix: the correctness of the `object_key < PrefixLimit(prefix)` stop
condition. -/
theorem lt_prefixLimit_isPrefix : ∀ (p k : Key), (∀ b ∈ k, b < 256) →
    p ≤ k → k < prefixLimit p → p <+: k := by
  intro p
  induction p with
  | nil => intro k _ _ _; exact List.nil_prefix
  | cons a t ih =>
    intro k hkb hle hlt
    cases k with
    | nil => exact (key_cons_not_le_nil a t hle).elim
    | cons c k2 =>
      have hc : c < 256 := hkb c (List.mem_cons_self _ _)
      obtain ⟨hac, hrest⟩ := key_cons_le a c t k2 hle
      unfold prefixLimit at hlt
      cases hpt : prefixLimit t with
      | nil =>
        simp only [hpt] at hlt
        by_cases ha : (a == 255) = true
        · rw [if_pos ha] at hlt
          exact (key_not_lt_nil _ hlt).elim
        · rw [if_neg ha] at hlt
          rcases key_lt_cons_inv hlt with h1 | ⟨h1, h2⟩
          · have heq : a = c := le_antisymm hac (by omega)
            rw [List.cons_prefix_cons]
            exact ⟨heq, all255_le_prefix t k2 (prefixLimit_nil_all255 t hpt)
              (fun b hb => hkb b (List.mem_cons_of_mem _ hb)) (hrest heq)⟩
          · exact (key_not_lt_nil _ h2).elim
      | cons d q =>
        simp only [hpt] at hlt
        rcases key_lt_cons_inv hlt with h1 | ⟨h1, h2⟩
        · exact absurd hac (not_le_of_lt h1)
        · have heq : a = c := h1.symm
          rw [List.cons_prefix_cons]
          exact ⟨heq, ih k2 (fun b hb => hkb b (List.mem_cons_of_mem _ hb)) (hrest heq)
            (by rw [hpt]; exact h2)⟩

/-- Position and shape of the first delimiter found in a key. -/
theorem firstDelim_spec : ∀ (k : Key) (i : Nat), firstDelim k = some i →
    i < k.length ∧ k.take (i + 1) = k.take i ++ [delimiterByte] := by
  intro k
  induction k with
  | nil => intro i h; exact Option.noConfusion h
  | cons b rest ih =>
    intro i h
    unfold firstDelim at h
    by_cases hb : b = delimiterByte
    · rw [if_pos hb] at h
      injection h with h0
      subst h0
      constructor
      · simp
      · simp [hb]
    · rw [if_neg hb] at h
      cases hrest : firstDelim rest with
      | none =>
        rw [hrest] at h
        exact Option.noConfusion h
      | some j =>
        rw [hrest] at h
        injection h with hh
        subst hh
        obtain ⟨hlen, htake⟩ := ih j hrest
        constructor
        · simpa using Nat.succ_lt_succ hlen
        · simp [List.take_succ_cons, htake]

/-- Dropping the final byte of a one-longer take yields the shorter take. -/
theorem dropLast_take_succ {k : Key} {i : Nat} (h : i < k.length) :
    (k.take (i + 1)).dropLast = k.take i := by
  rw [List.dropLast_eq_take, List.length_take, List.take_take]
  congr 1
  omega

/-! ## Listing: counting and batch lemmas -/

/-- Filtering by a pointwise stronger predicate keeps at most as many
elements. -/
theorem length_filter_le_of_imp {a : Type} (p q : a → Bool) :
    ∀ l : List a, (∀ x ∈ l, q x = true → p x = true) →
      (l.filter q).length ≤ (l.filter p).length := by
  intro l
  induction l with
  | nil => simp
  | cons b t ih =>
    intro himp
    have ht : ∀ x ∈ t, q x = true → p x = true :=
      fun x hx => himp x (List.mem_cons_of_mem _ hx)
    rw [List.filter_cons, List.filter_cons]
    by_cases hq : q b = true
    · have hp : p b = true := himp b (List.mem_cons_self _ _) hq
      rw [if_pos hq, if_pos hp]
      simpa using ih ht
    · rw [if_neg hq]
      by_cases hp : p b = true
      · rw [if_pos hp]
        exact le_trans (ih ht) (by simp)
      · rw [if_neg hp]
        exact ih ht

/-- Filtering by a pointwise stronger predicate that loses a witness keeps
strictly fewer elements. -/
theorem length_filter_lt_of_witness {a : Type} (p q : a → Bool) :
    ∀ l : List a, (∀ x ∈ l, q x = true → p x = true) →
      ∀ x0 ∈ l, p x0 = true → q x0 = false →
      (l.filter q).length < (l.filter p).length := by
  intro l
  induction l with
  | nil => intro _ x0 hx0; cases hx0
  | cons b t ih =>
    intro himp x0 hx0 hp0 hq0
    have ht : ∀ x ∈ t, q x = true → p x = true :=
      fun x hx => himp x (List.mem_cons_of_mem _ hx)
    rw [List.filter_cons, List.filter_cons]
    rcases List.mem_cons.mp hx0 with rfl | hx0t
    · rw [if_neg (by simp [hq0]), if_pos hp0]
      have hle := length_filter_le_of_imp p q t ht
      simp only [List.length_cons]
      omega
    · by_cases hq : q b = true
      · have hp : p b = true := himp b (List.mem_cons_self _ _) hq
        rw [if_pos hq, if_pos hp]
        simpa using ih ht x0 hx0t hp0 hq0
      · rw [if_neg hq]
        by_cases hp : p b = true
        · rw [if_pos hp]
          exact Nat.lt_succ_of_lt (ih ht x0 hx0t hp0 hq0)
        · rw [if_neg hp]
          exact ih ht x0 hx0t hp0 hq0

/-- The cursor boundary only admits keys at or above the cursor key. -/
theorem afterCursor_key_le {o : ListOpts} {c : Cursor} {r : ListRow}
    (h : afterCursorB o c r = true) : c.key ≤ r.objectKey := by
  unfold afterCursorB at h
  split at h <;>
    simp only [Bool.or_eq_true, Bool.and_eq_true, beq_iff_eq, decide_eq_true_eq] at h <;>
    rcases h with h | ⟨hk, _⟩
  · exact le_of_lt h
  · exact le_of_eq hk.symm
  · exact le_of_lt h
  · exact le_of_eq hk.symm

/-- Decomposition of the batch filter into its four conjuncts. -/
theorem rowSelectedB_iff {o : ListOpts} {c : Cursor} {r : ListRow} :
    rowSelectedB o c r = true ↔ afterCursorB o c r = true ∧ underStopB o r = true ∧
      statusCondB o r = true ∧ r.expired = false := by
  unfold rowSelectedB
  simp [Bool.and_eq_true, and_assoc, Bool.not_eq_true']

/-- A batch row is a table row admitted by the filter. -/
theorem mem_queryBatch {db : List ListRow} {o : ListOpts} {c : Cursor} {bs : Nat}
    {r : ListRow} (h : r ∈ queryBatch db o c bs) :
    r ∈ db ∧ rowSelectedB o c r = true := by
  unfold queryBatch at h
  have h2 : r ∈ sortByB (rowLeB o) (db.filter (rowSelectedB o c)) :=
    List.mem_of_mem_take h
  have h3 := (sortByB_mem _ _ _).mp h2
  exact ⟨List.mem_of_mem_filter h3, List.of_mem_filter h3⟩

/-- A filtered table row appears in the sorted scan. -/
theorem mem_sortFilter {db : List ListRow} {o : ListOpts} {c : Cursor} {r : ListRow}
    (hr : r ∈ db) (hs : rowSelectedB o c r = true) :
    r ∈ sortByB (rowLeB o) (db.filter (rowSelectedB o c)) :=
  (sortByB_mem _ _ _).mpr (List.mem_filter.mpr ⟨hr, hs⟩)

/-- The batch is pairwise ordered by the scan order. -/
theorem queryBatch_pairwise (db : List ListRow) (o : ListOpts) (c : Cursor) (bs : Nat) :
    List.Pairwise (fun p q => rowLeB o p q = true) (queryBatch db o c bs) :=
  List.Pairwise.sublist (List.take_sublist _ _)
    (sortByB_pairwise (rowLeB o) (rowLeB_total o) (rowLeB_trans o) _)

/-! ## Listing: row-loop structural lemmas -/

/-- The `IsLatest` adjustment leaves key, version and prefix kind
unchanged. -/
theorem adjustLatest_fields (o : ListOpts) (s : BatchState) (e0 : ObjectEntry) :
    (adjustLatest o s e0).objectKey = e0.objectKey ∧
    (adjustLatest o s e0).version = e0.version ∧
    (adjustLatest o s e0).isPfx = e0.isPfx := by
  unfold adjustLatest
  split <;> exact ⟨rfl, rfl, rfl⟩

/-- The `lastEntry` snapshot built in the row loop is the snapshot of the
scanned row. -/
theorem lastEntry_of_adjust (o : ListOpts) (s : BatchState) (r : ListRow) :
    (⟨true, (adjustLatest o s (entryOfRow o r)).objectKey,
      (adjustLatest o s (entryOfRow o r)).version,
      (adjustLatest o s (entryOfRow o r)).isPfx⟩ : LastEntry) = lastEntryOfRow o r := by
  obtain ⟨h1, h2, h3⟩ := adjustLatest_fields o s (entryOfRow o r)
  rw [lastEntryOfRow, h1, h2, h3]

/-- The scanned counter never decreases across the row loop. -/
theorem processRows_scanned_mono (o : ListOpts) :
    ∀ (rows : List ListRow) (s : BatchState) (n : Nat), n ≤ s.scanned →
      n ≤ (processRows o rows s).st.scanned := by
  intro rows
  induction rows with
  | nil => intro s n h; exact h
  | cons r rest ih =>
    intro s n h
    unfold processRows
    simp only []
    repeat' split
    all_goals first
      | exact le_trans h (Nat.le_succ _)
      | exact ih _ _ (le_trans h (Nat.le_succ _))

/-- Provenance of the final `lastEntry`: either some row of the batch was
scanned and the snapshot is that row's, or the loop scanned nothing and both
the snapshot and the counter are untouched. -/
theorem processRows_lastEntry (o : ListOpts) :
    ∀ (rows : List ListRow) (s : BatchState),
      (∃ r ∈ rows, (processRows o rows s).st.lastEntry = lastEntryOfRow o r) ∨
      ((processRows o rows s).st.lastEntry = s.lastEntry ∧
        (processRows o rows s).st.scanned = s.scanned) := by
  intro rows
  induction rows with
  | nil => intro s; exact Or.inr ⟨rfl, rfl⟩
  | cons r rest ih =>
    intro s
    unfold processRows
    simp only []
    repeat' split
    all_goals first
      | exact Or.inl ⟨r, List.mem_cons_self _ _, lastEntry_of_adjust o s r⟩
      | (rcases ih _ with ⟨r2, hr2, h⟩ | ⟨h1, _⟩
         · exact Or.inl ⟨r2, List.mem_cons_of_mem _ hr2, h⟩
         · exact Or.inl ⟨r, List.mem_cons_self _ _,
             by rw [h1]; exact lastEntry_of_adjust o s r⟩)

/-- Bounds on the accumulated entries: a limit-return carries exactly
limit + 1 entries, any other outcome stays within the limit. -/
theorem processRows_limit (o : ListOpts) :
    ∀ (rows : List ListRow) (s : BatchState), s.objects.length ≤ o.limit →
      (((processRows o rows s).signal = .limitReturn →
          (processRows o rows s).st.objects.length = o.limit + 1) ∧
       ((processRows o rows s).signal ≠ .limitReturn →
          (processRows o rows s).st.objects.length ≤ o.limit)) := by
  intro rows
  induction rows with
  | nil =>
    intro s hs
    exact ⟨fun h => BatchSignal.noConfusion h, fun _ => hs⟩
  | cons r rest ih =>
    intro s hs
    unfold processRows
    simp only []
    repeat' split
    all_goals first
      | exact ⟨fun h => BatchSignal.noConfusion h, fun _ => hs⟩
      | exact ih _ hs
      | (rename_i hc
         constructor
         · intro _
           simp only [List.length_append, List.length_singleton] at hc ⊢
           omega
         · intro hne
           exact absurd rfl hne)
      | (rename_i hc
         refine ih _ ?_
         simp only [List.length_append, List.length_singleton] at hc ⊢
         omega)

/-! ## Listing: cursor-advance lemmas -/

/-- Shape of a scanned row's entry: either a plain entry carrying the row's
suffix, version and status, or a collapsed prefix entry truncated after the
first delimiter of the suffix. -/
theorem entryOfRow_cases (o : ListOpts) (r : ListRow) :
    ((entryOfRow o r).isPfx = false ∧
      (entryOfRow o r).objectKey = r.objectKey.drop o.pfx.length ∧
      (entryOfRow o r).version = r.version ∧ (entryOfRow o r).status = r.status) ∨
    ((entryOfRow o r).isPfx = true ∧
      ∃ i, firstDelim (r.objectKey.drop o.pfx.length) = some i ∧
        (entryOfRow o r).objectKey = (r.objectKey.drop o.pfx.length).take (i + 1)) := by
  unfold entryOfRow
  simp only []
  split
  · exact Or.inl ⟨rfl, rfl, rfl, rfl⟩
  · split
    · rename_i i hi
      exact Or.inr ⟨rfl, i, hi, rfl⟩
    · exact Or.inl ⟨rfl, rfl, rfl, rfl⟩

/-- A selected row of a prefixed listing splits as prefix ++ suffix. -/
theorem selected_prefix_decomp {o : ListOpts} {c : Cursor} {r : ListRow}
    (hkb : ∀ b ∈ r.objectKey, b < 256) (hpc : o.pfx ≤ c.key)
    (hsel : rowSelectedB o c r = true) :
    o.pfx ++ r.objectKey.drop o.pfx.length = r.objectKey := by
  by_cases hp : o.pfx = []
  · simp [hp]
  · obtain ⟨ha, hu, _, _⟩ := rowSelectedB_iff.mp hsel
    have hle : o.pfx ≤ r.objectKey := le_trans hpc (afterCursor_key_le ha)
    have hlt : r.objectKey < prefixLimit o.pfx := by
      unfold underStopB at hu
      rw [if_neg (by simpa using hp)] at hu
      exact of_decide_eq_true hu
    exact isPrefix_append_drop (lt_prefixLimit_isPrefix o.pfx r.objectKey hkb hle hlt)

/-- A cursor strictly beyond a row's key rejects the row. -/
theorem afterCursor_false_of_lt {o : ListOpts} {c : Cursor} {r : ListRow}
    (h : r.objectKey < c.key) : afterCursorB o c r = false := by
  have h1 : decide (c.key < r.objectKey) = false := decide_eq_false (not_lt_of_gt h)
  have h2 : (r.objectKey == c.key) = false := beq_eq_false_iff_ne.mpr (ne_of_lt h)
  unfold afterCursorB
  split <;> simp [h1, h2]

/-- A rejected cursor boundary rejects the whole row filter. -/
theorem rowSelected_false_of_afterCursor_false {o : ListOpts} {c : Cursor} {r : ListRow}
    (h : afterCursorB o c r = false) : rowSelectedB o c r = false := by
  unfold rowSelectedB
  rw [h]
  rfl

/-- A cursor strictly below a row's key admits the row. -/
theorem afterCursor_of_key_lt {o : ListOpts} {c : Cursor} {x : ListRow}
    (h : c.key < x.objectKey) : afterCursorB o c x = true := by
  unfold afterCursorB
  split <;> simp [h]

/-- A cursor placed exactly at a row's key and version rejects that row. -/
theorem afterCursor_self_false (o : ListOpts) (r : ListRow) :
    afterCursorB o ⟨r.objectKey, r.version⟩ r = false := by
  unfold afterCursorB
  split <;> simp

/-- A cursor placed at a row's key with the mode's last version rejects any
well-formed version of that key, in particular the row itself. -/
theorem afterCursor_lastv_false {o : ListOpts} {r x : ListRow}
    (hkx : x.objectKey = r.objectKey)
    (hv1 : 1 ≤ x.version) (hv2 : x.version < maxVersion) :
    afterCursorB o ⟨r.objectKey, o.lastVersion⟩ x = false := by
  unfold afterCursorB ListOpts.lastVersion
  by_cases hm : o.versionAscending = true
  · rw [if_pos hm, if_pos hm]
    have hnv : ¬ (maxVersion < x.version) := not_lt_of_gt hv2
    simp [hkx, hnv]
  · rw [if_neg hm, if_neg hm]
    have hnv : ¬ (x.version < (0 : Version)) := not_lt.mpr (le_trans zero_le_one hv1)
    simp [hkx, hnv]

/-- Rows admitted after an all-versions cursor advance were admitted by the
previous cursor. -/
theorem afterCursor_step_allv {o : ListOpts} {c : Cursor} {r x : ListRow}
    (hcr : afterCursorB o c r = true)
    (hax : afterCursorB o ⟨r.objectKey, r.version⟩ x = true) :
    afterCursorB o c x = true := by
  unfold afterCursorB at hcr hax ⊢
  by_cases hm : o.versionAscending = true
  · rw [if_pos hm] at hcr hax ⊢
    simp only [Bool.or_eq_true, Bool.and_eq_true, beq_iff_eq, decide_eq_true_eq] at hcr hax ⊢
    rcases hax with hax | ⟨haxk, haxv⟩
    · rcases hcr with hcr | ⟨hcrk, _⟩
      · exact Or.inl (lt_trans hcr hax)
      · exact Or.inl (lt_of_le_of_lt (le_of_eq hcrk.symm) hax)
    · rcases hcr with hcr | ⟨hcrk, hcrv⟩
      · exact Or.inl (by rw [haxk]; exact hcr)
      · exact Or.inr ⟨haxk.trans hcrk, lt_trans hcrv haxv⟩
  · rw [if_neg hm] at hcr hax ⊢
    simp only [Bool.or_eq_true, Bool.and_eq_true, beq_iff_eq, decide_eq_true_eq] at hcr hax ⊢
    rcases hax with hax | ⟨haxk, haxv⟩
    · rcases hcr with hcr | ⟨hcrk, _⟩
      · exact Or.inl (lt_trans hcr hax)
      · exact Or.inl (lt_of_le_of_lt (le_of_eq hcrk.symm) hax)
    · rcases hcr with hcr | ⟨hcrk, hcrv⟩
      · exact Or.inl (by rw [haxk]; exact hcr)
      · exact Or.inr ⟨haxk.trans hcrk, lt_trans haxv hcrv⟩

/-- Well-formed rows admitted after a collapse-versions cursor advance were
admitted by the previous cursor. -/
theorem afterCursor_step_lastv {o : ListOpts} {c : Cursor} {r x : ListRow}
    (hv1 : 1 ≤ x.version) (hv2 : x.version < maxVersion)
    (hcr : afterCursorB o c r = true)
    (hax : afterCursorB o ⟨r.objectKey, o.lastVersion⟩ x = true) :
    afterCursorB o c x = true := by
  have hck : c.key ≤ r.objectKey := afterCursor_key_le hcr
  unfold afterCursorB ListOpts.lastVersion at hax
  by_cases hm : o.versionAscending = true
  · rw [if_pos hm, if_pos hm] at hax
    simp only [Bool.or_eq_true, Bool.and_eq_true, beq_iff_eq, decide_eq_true_eq] at hax
    rcases hax with hax | ⟨_, haxv⟩
    · exact afterCursor_of_key_lt (lt_of_le_of_lt hck hax)
    · exact absurd haxv (not_lt_of_gt hv2)
  · rw [if_neg hm, if_neg hm] at hax
    simp only [Bool.or_eq_true, Bool.and_eq_true, beq_iff_eq, decide_eq_true_eq] at hax
    rcases hax with hax | ⟨_, haxv⟩
    · exact afterCursor_of_key_lt (lt_of_le_of_lt hck hax)
    · exact absurd haxv (not_lt.mpr (le_trans zero_le_one hv1))

/-- Rows admitted after a key-advancing cursor move were admitted by the
previous cursor. -/
theorem afterCursor_step_keylt {o : ListOpts} {c : Cursor} {r x : ListRow} {k : Key}
    {v : Version} (hcr : afterCursorB o c r = true) (hk : r.objectKey < k)
    (hax : afterCursorB o ⟨k, v⟩ x = true) : afterCursorB o c x = true :=
  afterCursor_of_key_lt
    (lt_of_le_of_lt (afterCursor_key_le hcr) (lt_of_lt_of_le hk (afterCursor_key_le hax)))

/-- Cursor monotonicity lifts from the boundary to the whole row filter. -/
theorem rowSelected_cursor_mono {o : ListOpts} {c c2 : Cursor} {x : ListRow}
    (hac : afterCursorB o c2 x = true → afterCursorB o c x = true)
    (h : rowSelectedB o c2 x = true) : rowSelectedB o c x = true := by
  obtain ⟨h1, h2, h3, h4⟩ := rowSelectedB_iff.mp h
  exact rowSelectedB_iff.mpr ⟨hac h1, h2, h3, h4⟩

/-- The requery cursor formed from a scanned batch row excludes that row
while keeping every row it admits inside the old selection: the
remaining-row count strictly decreases. -/
theorem remaining_decrease (db : List ListRow) (o : ListOpts) (hwf : RowsWF db)
    {c : Cursor} (hpc : o.pfx ≤ c.key) {bs : Nat} {r : ListRow}
    (hr : r ∈ queryBatch db o c bs) :
    remainingRows db o (nextCursorOf o (lastEntryOfRow o r)) < remainingRows db o c := by
  obtain ⟨hrdb, hrsel⟩ := mem_queryBatch hr
  obtain ⟨⟨hv1, hv2⟩, hkb⟩ := hwf r hrdb
  have hdecomp : o.pfx ++ r.objectKey.drop o.pfx.length = r.objectKey :=
    selected_prefix_decomp hkb hpc hrsel
  unfold remainingRows
  rcases entryOfRow_cases o r with ⟨hpfx, hkey, hver, _⟩ | ⟨hpfx, i, hdel, hkey⟩
  · by_cases hav : o.allVersions = true
    · have hc2 : nextCursorOf o (lastEntryOfRow o r) = ⟨r.objectKey, r.version⟩ := by
        unfold nextCursorOf lastEntryOfRow
        rw [if_neg (by simp [hpfx]), if_pos hav]
        simp [hkey, hver, hdecomp]
      rw [hc2]
      refine length_filter_lt_of_witness _ _ db ?_ r hrdb hrsel ?_
      · intro x hx hxsel
        exact rowSelected_cursor_mono
          (fun hax => afterCursor_step_allv (rowSelectedB_iff.mp hrsel).1 hax) hxsel
      · exact rowSelected_false_of_afterCursor_false (afterCursor_self_false o r)
    · have hc2 : nextCursorOf o (lastEntryOfRow o r) = ⟨r.objectKey, o.lastVersion⟩ := by
        unfold nextCursorOf lastEntryOfRow
        rw [if_neg (by simp [hpfx]), if_neg hav]
        simp [hkey, hver, hdecomp]
      rw [hc2]
      refine length_filter_lt_of_witness _ _ db ?_ r hrdb hrsel ?_
      · intro x hx hxsel
        obtain ⟨⟨hx1, hx2⟩, _⟩ := hwf x hx
        exact rowSelected_cursor_mono
          (fun hax => afterCursor_step_lastv hx1 hx2 (rowSelectedB_iff.mp hrsel).1 hax) hxsel
      · exact rowSelected_false_of_afterCursor_false
          (afterCursor_lastv_false rfl hv1 hv2)
  · obtain ⟨hilen, htake⟩ := firstDelim_spec (r.objectKey.drop o.pfx.length) i hdel
    have hc2 : nextCursorOf o (lastEntryOfRow o r) =
        ⟨o.pfx ++ (r.objectKey.drop o.pfx.length).take i ++ [delimiterNextByte],
          o.firstVersion⟩ := by
      unfold nextCursorOf lastEntryOfRow
      rw [if_pos (by simp [hpfx])]
      simp [hkey, dropLast_take_succ hilen, List.append_assoc]
    have hrlt : r.objectKey <
        o.pfx ++ (r.objectKey.drop o.pfx.length).take i ++ [delimiterNextByte] := by
      calc r.objectKey = o.pfx ++ r.objectKey.drop o.pfx.length := hdecomp.symm
        _ = o.pfx ++ ((r.objectKey.drop o.pfx.length).take (i + 1) ++
            (r.objectKey.drop o.pfx.length).drop (i + 1)) := by
              rw [List.take_append_drop]
        _ = (o.pfx ++ (r.objectKey.drop o.pfx.length).take i) ++
            (delimiterByte :: (r.objectKey.drop o.pfx.length).drop (i + 1)) := by
              rw [htake]
              simp [List.append_assoc]
        _ < (o.pfx ++ (r.objectKey.drop o.pfx.length).take i) ++ [delimiterNextByte] :=
              List.Lex.append_left _
                (List.Lex.rel (by norm_num [delimiterByte, delimiterNextByte])) _
        _ = o.pfx ++ (r.objectKey.drop o.pfx.length).take i ++ [delimiterNextByte] := by
              rw [List.append_assoc]
    rw [hc2]
    refine length_filter_lt_of_witness _ _ db ?_ r hrdb hrsel ?_
    · intro x hx hxsel
      exact rowSelected_cursor_mono
        (fun hax => afterCursor_step_keylt (rowSelectedB_iff.mp hrsel).1 hrlt hax) hxsel
    · exact rowSelected_false_of_afterCursor_false (afterCursor_false_of_lt hrlt)

/-! ## Listing: requery-loop lemmas -/

/-- The requery cursor always stays at or beyond the request prefix. -/
theorem nextCursorOf_key_pfx (o : ListOpts) (le : LastEntry) :
    o.pfx ≤ (nextCursorOf o le).key := by
  unfold nextCursorOf
  repeat' split
  all_goals first
    | (rw [List.append_assoc]; exact key_le_append _ _)
    | exact key_le_append _ _

/-- Full behaviour of the requery loop: with enough fuel it returns, the
iteration count stays within the requery limit (which grows once per
delete-marker batch), a too-many-requeries failure happens exactly at the
limit and returns no entries, the result never exceeds the request limit,
and `more` is set exactly when limit + 1 entries had accumulated, the extra
entry being trimmed. -/
theorem listLoop_spec (db : List ListRow) (o : ListOpts) (hwf : RowsWF db) :
    ∀ (fuel repeatN requeryLimit : Nat) (c : Cursor) (s : BatchState) (mb : Nat),
      o.pfx ≤ c.key →
      remainingRows db o c + 1 ≤ fuel →
      repeatN ≤ requeryLimit →
      s.objects.length ≤ o.limit →
      ∃ out stats, listLoop db o fuel repeatN requeryLimit c s mb = some (out, stats) ∧
        stats.finalRequeryLimit + mb = requeryLimit + stats.markerBatches ∧
        mb ≤ stats.markerBatches ∧
        stats.iterations ≤ stats.finalRequeryLimit ∧
        (out.ok = false → stats.iterations = stats.finalRequeryLimit ∧ out.objects = []) ∧
        out.objects.length ≤ o.limit ∧
        (out.more = true ↔ stats.accumulated = o.limit + 1) ∧
        (out.more = true → out.objects.length = o.limit) := by
  intro fuel
  induction fuel with
  | zero =>
    intro repeatN requeryLimit c s mb _ hfuel _ _
    omega
  | succ fuel ih =>
    intro repeatN requeryLimit c s mb hpc hfuel hrr hobj
    unfold listLoop
    by_cases hguard : requeryLimit ≤ repeatN
    · rw [if_pos hguard]
      refine ⟨⟨false, [], false⟩, ⟨repeatN, mb, requeryLimit, s.objects.length⟩, rfl, rfl,
        le_refl _, hrr, fun _ => ⟨le_antisymm hrr hguard, rfl⟩, by simp, ?_, ?_⟩
      · show false = true ↔ s.objects.length = o.limit + 1
        constructor
        · intro h; exact Bool.noConfusion h
        · intro h; omega
      · intro h; exact Bool.noConfusion h
    · rw [if_neg hguard]
      simp only []
      set P := processRows o (queryBatch db o c (batchSizeOf o))
        { s with scanned := 0, foundMarker := false } with hP
      have hPlim := processRows_limit o (queryBatch db o c (batchSizeOf o))
        { s with scanned := 0, foundMarker := false } hobj
      rw [← hP] at hPlim
      have hPlast := processRows_lastEntry o (queryBatch db o c (batchSizeOf o))
        { s with scanned := 0, foundMarker := false }
      rw [← hP] at hPlast
      cases hsig : P.signal with
      | limitReturn =>
        simp only [hsig]
        have hlim : P.st.objects.length = o.limit + 1 := hPlim.1 hsig
        refine ⟨⟨true, P.st.objects.take o.limit, true⟩,
          ⟨repeatN + 1, mb, requeryLimit, P.st.objects.length⟩, rfl, rfl, le_refl _,
          ?_, ?_, ?_, ?_, ?_⟩
        · show repeatN + 1 ≤ requeryLimit
          omega
        · intro h; exact Bool.noConfusion h
        · show (P.st.objects.take o.limit).length ≤ o.limit
          rw [List.length_take]
          exact min_le_left _ _
        · show true = true ↔ P.st.objects.length = o.limit + 1
          exact ⟨fun _ => hlim, fun _ => rfl⟩
        · intro _
          show (P.st.objects.take o.limit).length = o.limit
          rw [List.length_take, hlim]
          omega
      | ranOut =>
        simp only [hsig]
        have hne : P.signal ≠ BatchSignal.limitReturn := by
          rw [hsig]
          intro h
          exact BatchSignal.noConfusion h
        have hlen : P.st.objects.length ≤ o.limit := hPlim.2 hne
        set rq2 := (if P.st.foundMarker = true then requeryLimit + 1 else requeryLimit)
          with hrq2
        set mb2 := (if P.st.foundMarker = true then mb + 1 else mb) with hmb2
        have hrq2le : requeryLimit ≤ rq2 := by
          rw [hrq2]
          split <;> omega
        have hsum : rq2 + mb = requeryLimit + mb2 := by
          rw [hrq2, hmb2]
          split <;> omega
        have hmble : mb ≤ mb2 := by
          rw [hmb2]
          split <;> omega
        by_cases hsc : (P.st.scanned == 0) = true
        · rw [if_pos hsc]
          refine ⟨⟨true, P.st.objects, false⟩, ⟨repeatN + 1, mb2, rq2, P.st.objects.length⟩,
            rfl, hsum, hmble, ?_, ?_, hlen, ?_, ?_⟩
          · show repeatN + 1 ≤ rq2
            omega
          · intro h; exact Bool.noConfusion h
          · show false = true ↔ P.st.objects.length = o.limit + 1
            constructor
            · intro h; exact Bool.noConfusion h
            · intro h; omega
          · intro h; exact Bool.noConfusion h
        · rw [if_neg hsc]
          have hscz : P.st.scanned ≠ 0 := by
            intro h
            apply hsc
            rw [h]
            rfl
          rcases hPlast with ⟨r, hrmem, hle⟩ | ⟨_, hsc0⟩
          · have hdec := remaining_decrease db o hwf hpc hrmem
            rw [← hle] at hdec
            by_cases hlt : P.st.scanned < batchSizeOf o
            · rw [if_pos (by simp [hlt])]
              refine ⟨⟨true, P.st.objects, false⟩,
                ⟨repeatN + 1, mb2, rq2, P.st.objects.length⟩,
                rfl, hsum, hmble, ?_, ?_, hlen, ?_, ?_⟩
              · show repeatN + 1 ≤ rq2
                omega
              · intro h; exact Bool.noConfusion h
              · show false = true ↔ P.st.objects.length = o.limit + 1
                constructor
                · intro h; exact Bool.noConfusion h
                · intro h; omega
              · intro h; exact Bool.noConfusion h
            · rw [if_neg (by simp [hlt])]
              obtain ⟨out, stats, heq, h2, h3, h4, h5, h6, h7, h8⟩ :=
                ih (repeatN + 1) rq2 (nextCursorOf o P.st.lastEntry) P.st mb2
                  (nextCursorOf_key_pfx o _) (by omega) (by omega) hlen
              exact ⟨out, stats, heq, by omega, by omega, h4, h5, h6, h7, h8⟩
          · exact absurd (by rw [(show P.st.scanned = 0 from hsc0)]; rfl) hsc
      | skipAheadBreak =>
        simp only [hsig]
        have hne : P.signal ≠ BatchSignal.limitReturn := by
          rw [hsig]
          intro h
          exact BatchSignal.noConfusion h
        have hlen : P.st.objects.length ≤ o.limit := hPlim.2 hne
        set rq2 := (if P.st.foundMarker = true then requeryLimit + 1 else requeryLimit)
          with hrq2
        set mb2 := (if P.st.foundMarker = true then mb + 1 else mb) with hmb2
        have hrq2le : requeryLimit ≤ rq2 := by
          rw [hrq2]
          split <;> omega
        have hsum : rq2 + mb = requeryLimit + mb2 := by
          rw [hrq2, hmb2]
          split <;> omega
        have hmble : mb ≤ mb2 := by
          rw [hmb2]
          split <;> omega
        by_cases hsc : (P.st.scanned == 0) = true
        · rw [if_pos hsc]
          refine ⟨⟨true, P.st.objects, false⟩, ⟨repeatN + 1, mb2, rq2, P.st.objects.length⟩,
            rfl, hsum, hmble, ?_, ?_, hlen, ?_, ?_⟩
          · show repeatN + 1 ≤ rq2
            omega
          · intro h; exact Bool.noConfusion h
          · show false = true ↔ P.st.objects.length = o.limit + 1
            constructor
            · intro h; exact Bool.noConfusion h
            · intro h; omega
          · intro h; exact Bool.noConfusion h
        · rw [if_neg hsc]
          rcases hPlast with ⟨r, hrmem, hle⟩ | ⟨_, hsc0⟩
          · have hdec := remaining_decrease db o hwf hpc hrmem
            rw [← hle] at hdec
            rw [if_neg (by simp)]
            obtain ⟨out, stats, heq, h2, h3, h4, h5, h6, h7, h8⟩ :=
              ih (repeatN + 1) rq2 (nextCursorOf o P.st.lastEntry) P.st mb2
                (nextCursorOf_key_pfx o _) (by omega) (by omega) hlen
            exact ⟨out, stats, heq, by omega, by omega, h4, h5, h6, h7, h8⟩
          · exact absurd (by rw [(show P.st.scanned = 0 from hsc0)]; rfl) hsc

/-- The start cursor always lies at or beyond the request prefix. -/
theorem startCursor_key_pfx (o : ListOpts) : o.pfx ≤ o.startCursor.key := by
  unfold ListOpts.startCursor
  by_cases hp : o.pfx.isPrefixOf o.cursorKey = true
  · rw [if_pos hp]
    have hpre : o.pfx <+: o.cursorKey := List.isPrefixOf_iff_prefix.mp hp
    by_cases hr : o.recursive = true
    · rw [if_pos hr]
      exact isPrefix_le hpre
    · rw [if_neg hr]
      cases hfd : firstDelim (o.cursorKey.drop o.pfx.length) with
      | some i =>
        simp only [hfd]
        refine isPrefix_le (List.IsPrefix.trans ?_ (List.prefix_append _ _))
        exact List.prefix_take_iff.mpr ⟨hpre, by omega⟩
      | none =>
        simp only [hfd]
        exact isPrefix_le hpre
  · rw [if_neg hp]
    by_cases hlt : o.cursorKey < o.pfx
    · rw [if_pos hlt]
    · rw [if_neg hlt]
      exact not_lt.mp hlt

/-- Claim C8 (confirmed): every ListObjects call over a well-formed table
terminates; the requery loop runs at most `finalRequeryLimit` iterations,
where the limit starts at limit + 10 and grows by one per batch that
contained a delete marker; exhausting it returns the too-many-requeries
failure with an empty result instead of looping; the result never exceeds
`limit` entries; and `more` is set exactly when limit + 1 entries had
accumulated, in which case the extra entry is trimmed and exactly `limit`
entries are returned. -/
theorem listObjects_terminates (db : List ListRow) (o : ListOpts) (hwf : RowsWF db) :
    ∃ out stats, listObjectsPostgres db o = some (out, stats) ∧
      stats.finalRequeryLimit = o.limit + 10 + stats.markerBatches ∧
      stats.iterations ≤ stats.finalRequeryLimit ∧
      (out.ok = false → stats.iterations = stats.finalRequeryLimit ∧ out.objects = []) ∧
      out.objects.length ≤ o.limit ∧
      (out.more = true ↔ stats.accumulated = o.limit + 1) ∧
      (out.more = true → out.objects.length = o.limit) := by
  have hflt := List.length_filter_le (rowSelectedB o o.startCursor) db
  obtain ⟨out, stats, heq, h2, h3, h4, h5, h6, h7, h8⟩ :=
    listLoop_spec db o hwf (db.length + 2) 0 (o.limit + 10) o.startCursor
      ⟨⟨false, [], 0, false⟩, ⟨0, 0⟩, [], 0, false⟩ 0
      (startCursor_key_pfx o) (by unfold remainingRows; omega) (by omega) (by simp)
  exact ⟨out, stats, heq, by omega, h4, h5, h6, h7, h8⟩

/-- Witness for claim C8: the concrete four-row table is well-formed and the
listing over it returns within the stated bounds. -/
theorem listObjects_terminates_witness :
    RowsWF exListRows ∧
    ∃ out stats, listObjectsPostgres exListRows exListOpts = some (out, stats) ∧
      stats.finalRequeryLimit = exListOpts.limit + 10 + stats.markerBatches ∧
      stats.iterations ≤ stats.finalRequeryLimit ∧
      (out.ok = false → stats.iterations = stats.finalRequeryLimit ∧ out.objects = []) ∧
      out.objects.length ≤ exListOpts.limit ∧
      (out.more = true ↔ stats.accumulated = exListOpts.limit + 1) ∧
      (out.more = true → out.objects.length = exListOpts.limit) :=
  ⟨by unfold RowsWF; decide, listObjects_terminates exListRows exListOpts
    (by unfold RowsWF; decide)⟩

/-! ## Listing: delete-marker elision lemmas -/

/-- The `IsLatest` adjustment leaves the status unchanged. -/
theorem adjustLatest_status (o : ListOpts) (s : BatchState) (e0 : ObjectEntry) :
    (adjustLatest o s e0).status = e0.status := by
  unfold adjustLatest
  split <;> rfl

/-- Rows with the same raw key produce entries with the same key and prefix
kind. -/
theorem entryOfRow_key_congr (o : ListOpts) (a b : ListRow)
    (h : a.objectKey = b.objectKey) :
    (entryOfRow o a).objectKey = (entryOfRow o b).objectKey ∧
    (entryOfRow o a).isPfx = (entryOfRow o b).isPfx := by
  unfold entryOfRow
  simp only [h]
  by_cases hr : o.recursive = true
  · simp [hr]
  · rw [if_neg hr, if_neg hr]
    cases hfd : firstDelim (b.objectKey.drop o.pfx.length) <;> simp [hfd]

/-- The newest-visible property transfers along field equalities. -/
theorem newestVisibleNonMarker_congr {db : List ListRow} {o : ListOpts}
    {e e2 : ObjectEntry} (h1 : e2.objectKey = e.objectKey) (h2 : e2.version = e.version)
    (h3 : e2.status = e.status) (h : newestVisibleNonMarker db o e) :
    newestVisibleNonMarker db o e2 := by
  unfold newestVisibleNonMarker at h ⊢
  rw [h1, h2, h3]
  exact h

/-- The central elision argument: in descending single-version mode, a row
whose entry is appended (neither version-skipped nor a delete marker) carries
the newest visible version of its key.  Any strictly newer visible version
would appear earlier in the batch, so the previous scanned row would share
the key and the version-skip test would have fired. -/
theorem appended_entry_newest (db : List ListRow) (o : ListOpts) (hwf : RowsWF db)
    (hav : o.allVersions = false) (hp : o.pending = false) (hu : o.unversioned = false)
    {c : Cursor} (hcv : c.version = maxVersion ∨ c.version = 0) (hpc : o.pfx ≤ c.key)
    {done rest : List ListRow} {r : ListRow} {s : BatchState}
    (hsplit : done ++ r :: rest = queryBatch db o c (batchSizeOf o))
    (hlast : done ≠ [] → ∃ rl, done.getLast? = some rl ∧ s.lastEntry = lastEntryOfRow o rl)
    (hskip : skipVersionB o s.lastEntry (entryOfRow o r) = false)
    (hnp : (entryOfRow o r).isPfx = false)
    (hnmark : (entryOfRow o r).status.isDeleteMarker = false) :
    newestVisibleNonMarker db o (entryOfRow o r) := by
  have hva : o.versionAscending = false := by
    simp [ListOpts.versionAscending, hp, hu]
  have hrbatch : r ∈ queryBatch db o c (batchSizeOf o) := by
    rw [← hsplit]
    exact List.mem_append.mpr (Or.inr (List.mem_cons_self _ _))
  obtain ⟨hrdb, hrsel⟩ := mem_queryBatch hrbatch
  obtain ⟨⟨hv1r, hv2r⟩, hkbr⟩ := hwf r hrdb
  have hdecomp := selected_prefix_decomp hkbr hpc hrsel
  rcases entryOfRow_cases o r with ⟨_, hkey, hver, hstat⟩ | ⟨hpfx2, _⟩
  · refine ⟨r, hrdb, ⟨(rowSelectedB_iff.mp hrsel).2.2.1, (rowSelectedB_iff.mp hrsel).2.2.2⟩,
      ?_, hver.symm, hstat.symm, ?_, ?_⟩
    · rw [hkey]
      exact hdecomp.symm
    · rw [← hstat]
      exact hnmark
    · intro r2 hr2 hvis2 hkey2
      by_contra hgt
      have hv := not_le.mp hgt
      have hsel2 : rowSelectedB o c r2 = true := by
        refine rowSelectedB_iff.mpr ⟨?_, ?_, hvis2.1, hvis2.2⟩
        · have hac := (rowSelectedB_iff.mp hrsel).1
          unfold afterCursorB at hac ⊢
          rw [if_neg (by simp [hva])] at hac ⊢
          simp only [Bool.or_eq_true, Bool.and_eq_true, beq_iff_eq, decide_eq_true_eq]
            at hac ⊢
          rcases hac with hlt | ⟨hkeq, hvlt⟩
          · exact Or.inl (by rw [hkey2]; exact hlt)
          · rcases hcv with hM | h0
            · exact Or.inr ⟨by rw [hkey2]; exact hkeq, by rw [hM]; exact (hwf r2 hr2).1.2⟩
            · rw [h0] at hvlt
              exact absurd hvlt (not_lt.mpr (le_trans zero_le_one hv1r))
        · have hus := (rowSelectedB_iff.mp hrsel).2.1
          unfold underStopB at hus ⊢
          by_cases hpn : (o.pfx == []) = true
          · rw [if_pos hpn]
          · rw [if_neg hpn] at hus ⊢
            rw [hkey2]
            exact hus
      have hbef : r2.objectKey < r.objectKey ∨
          (r2.objectKey = r.objectKey ∧ r.version < r2.version) := Or.inr ⟨hkey2, hv⟩
      have hr2batch : r2 ∈ queryBatch db o c (batchSizeOf o) :=
        mem_take_of_before o hva
          (sortByB_pairwise _ (rowLeB_total o) (rowLeB_trans o) _)
          (mem_sortFilter hr2 hsel2) hrbatch hbef
      have hpw : List.Pairwise (fun p q => rowLeB o p q = true) (done ++ r :: rest) := by
        rw [hsplit]
        exact queryBatch_pairwise db o c _
      have hr2done : r2 ∈ done :=
        mem_split_before o hva hpw (by rw [hsplit]; exact hr2batch) hbef
      have hdne : done ≠ [] := by
        intro h
        rw [h] at hr2done
        cases hr2done
      obtain ⟨rl, hrllast, hsle⟩ := hlast hdne
      obtain ⟨hpwdone, _, hcross⟩ := List.pairwise_append.mp hpw
      have hrlkey : rl.objectKey = r.objectKey := by
        rcases pairwise_last_ge o hpwdone hrllast hr2done with heq2 | hle2
        · rw [← heq2, hkey2]
        · exact le_antisymm
            (rowLeB_key_le o (hcross rl (List.mem_of_getLast?_eq_some hrllast)
              r (List.mem_cons_self _ _)))
            (by rw [← hkey2]; exact rowLeB_key_le o hle2)
      obtain ⟨hek, hei⟩ := entryOfRow_key_congr o rl r hrlkey
      have htrue : skipVersionB o s.lastEntry (entryOfRow o r) = true := by
        rw [hsle]
        unfold skipVersionB sameEntryB lastEntryOfRow
        simp [hav, hek, hei]
      rw [htrue] at hskip
      exact Bool.noConfusion hskip
  · rw [hnp] at hpfx2
    exact Bool.noConfusion hpfx2

/-- Every entry accumulated by the row loop of one batch in descending
single-version mode is a collapsed prefix or a newest visible non-marker,
provided the incoming entries are and `lastEntry` snapshots the last row
already consumed from this batch. -/
theorem processRows_newest (db : List ListRow) (o : ListOpts) (hwf : RowsWF db)
    (hav : o.allVersions = false) (hp : o.pending = false) (hu : o.unversioned = false)
    {c : Cursor} (hcv : c.version = maxVersion ∨ c.version = 0) (hpc : o.pfx ≤ c.key) :
    ∀ (rows done : List ListRow) (s : BatchState),
      done ++ rows = queryBatch db o c (batchSizeOf o) →
      (done ≠ [] → ∃ rl, done.getLast? = some rl ∧ s.lastEntry = lastEntryOfRow o rl) →
      (∀ e ∈ s.objects, entryOK db o e) →
      ∀ e ∈ (processRows o rows s).st.objects, entryOK db o e := by
  intro rows
  induction rows with
  | nil =>
    intro done s _ _ hobj e he
    exact hobj e he
  | cons r rest ih =>
    intro done s hsplit hlast hobj
    unfold processRows
    simp only []
    repeat' split
    all_goals first
      | (intro e he
         exact hobj e he)
      | (refine ih (done ++ [r]) _ ?_ ?_ ?_
         · rw [List.append_assoc, List.singleton_append]
           exact hsplit
         · intro _
           exact ⟨r, List.getLast?_concat _, lastEntry_of_adjust o s r⟩
         · exact hobj)
      | (rename_i hno hnm hlim
         intro e he
         rcases List.mem_append.mp he with hh | hh
         · exact hobj e hh
         · rw [List.mem_singleton.mp hh]
           have hskipv : skipVersionB o s.lastEntry (entryOfRow o r) = false := by
             simp only [Bool.or_eq_true, not_or] at hno
             exact Bool.eq_false_iff.mpr hno.1.2
           have hmark : (entryOfRow o r).status.isDeleteMarker = false := by
             simp only [hav, adjustLatest_status, Bool.not_false, Bool.true_and] at hnm
             exact Bool.eq_false_iff.mpr hnm
           by_cases hpfx : (entryOfRow o r).isPfx = true
           · exact Or.inl
               (by rw [(adjustLatest_fields o s (entryOfRow o r)).2.2]; exact hpfx)
           · exact Or.inr (newestVisibleNonMarker_congr
               (adjustLatest_fields o s (entryOfRow o r)).1
               (adjustLatest_fields o s (entryOfRow o r)).2.1
               (adjustLatest_status o s (entryOfRow o r))
               (appended_entry_newest db o hwf hav hp hu hcv hpc hsplit hlast
                 hskipv (Bool.eq_false_iff.mpr hpfx) hmark)))
      | (rename_i hno hnm hlim
         refine ih (done ++ [r]) _ ?_ ?_ ?_
         · rw [List.append_assoc, List.singleton_append]
           exact hsplit
         · intro _
           exact ⟨r, List.getLast?_concat _, lastEntry_of_adjust o s r⟩
         · intro e he
           rcases List.mem_append.mp he with hh | hh
           · exact hobj e hh
           · rw [List.mem_singleton.mp hh]
             have hskipv : skipVersionB o s.lastEntry (entryOfRow o r) = false := by
               simp only [Bool.or_eq_true, not_or] at hno
               exact Bool.eq_false_iff.mpr hno.1.2
             have hmark : (entryOfRow o r).status.isDeleteMarker = false := by
               simp only [hav, adjustLatest_status, Bool.not_false, Bool.true_and] at hnm
               exact Bool.eq_false_iff.mpr hnm
             by_cases hpfx : (entryOfRow o r).isPfx = true
             · exact Or.inl
                 (by rw [(adjustLatest_fields o s (entryOfRow o r)).2.2]; exact hpfx)
             · exact Or.inr (newestVisibleNonMarker_congr
                 (adjustLatest_fields o s (entryOfRow o r)).1
                 (adjustLatest_fields o s (entryOfRow o r)).2.1
                 (adjustLatest_status o s (entryOfRow o r))
                 (appended_entry_newest db o hwf hav hp hu hcv hpc hsplit hlast
                   hskipv (Bool.eq_false_iff.mpr hpfx) hmark)))

/-- The requery cursor's version is the sentinel maximum or zero in
descending single-version mode. -/
theorem nextCursorOf_version_desc (o : ListOpts) (le : LastEntry)
    (hav : o.allVersions = false) (hva : o.versionAscending = false) :
    (nextCursorOf o le).version = maxVersion ∨ (nextCursorOf o le).version = 0 := by
  unfold nextCursorOf ListOpts.firstVersion ListOpts.lastVersion
  by_cases hpf : le.isPfx = true
  · rw [if_pos hpf]
    left
    simp [hva]
  · rw [if_neg hpf, if_neg (by simp [hav])]
    right
    simp [hva]

/-- The start cursor always carries the mode's first version. -/
theorem startCursor_version (o : ListOpts) : o.startCursor.version = o.firstVersion := by
  unfold ListOpts.startCursor
  repeat' split
  all_goals rfl

/-- The loop-level elision invariant: starting from a first-or-last-version
cursor at or beyond the prefix with only good accumulated entries, every
entry of a successful descending single-version listing is a collapsed
prefix or a newest visible non-marker. -/
theorem listLoop_newest (db : List ListRow) (o : ListOpts) (hwf : RowsWF db)
    (hav : o.allVersions = false) (hp : o.pending = false) (hu : o.unversioned = false) :
    ∀ (fuel repeatN requeryLimit : Nat) (c : Cursor) (s : BatchState) (mb : Nat)
      (out : ListOut) (stats : ListStats),
      (c.version = maxVersion ∨ c.version = 0) →
      o.pfx ≤ c.key →
      (∀ e ∈ s.objects, entryOK db o e) →
      listLoop db o fuel repeatN requeryLimit c s mb = some (out, stats) →
      ∀ e ∈ out.objects, entryOK db o e := by
  have hva : o.versionAscending = false := by
    simp [ListOpts.versionAscending, hp, hu]
  intro fuel
  induction fuel with
  | zero =>
    intro repeatN requeryLimit c s mb out stats _ _ _ heq
    exact Option.noConfusion heq
  | succ fuel ih =>
    intro repeatN requeryLimit c s mb out stats hcv hpc hobj heq
    unfold listLoop at heq
    by_cases hguard : requeryLimit ≤ repeatN
    · rw [if_pos hguard] at heq
      simp only [Option.some.injEq, Prod.mk.injEq] at heq
      obtain ⟨ho, _⟩ := heq
      rw [← ho]
      intro e he
      exact absurd he (List.not_mem_nil e)
    · rw [if_neg hguard] at heq
      simp only [] at heq
      set P := processRows o (queryBatch db o c (batchSizeOf o))
        { s with scanned := 0, foundMarker := false } with hP
      have hnew := processRows_newest db o hwf hav hp hu hcv hpc
        (queryBatch db o c (batchSizeOf o)) []
        { s with scanned := 0, foundMarker := false } rfl
        (fun h => absurd rfl h) hobj
      rw [← hP] at hnew
      cases hsig : P.signal with
      | limitReturn =>
        simp only [hsig] at heq
        simp only [Option.some.injEq, Prod.mk.injEq] at heq
        obtain ⟨ho, _⟩ := heq
        rw [← ho]
        intro e he
        exact hnew e (List.mem_of_mem_take he)
      | ranOut =>
        simp only [hsig] at heq
        by_cases hsc : (P.st.scanned == 0) = true
        · rw [if_pos hsc] at heq
          simp only [Option.some.injEq, Prod.mk.injEq] at heq
          obtain ⟨ho, _⟩ := heq
          rw [← ho]
          intro e he
          exact hnew e he
        · rw [if_neg hsc] at heq
          by_cases hlt : P.st.scanned < batchSizeOf o
          · rw [if_pos (by simp [hlt])] at heq
            simp only [Option.some.injEq, Prod.mk.injEq] at heq
            obtain ⟨ho, _⟩ := heq
            rw [← ho]
            intro e he
            exact hnew e he
          · rw [if_neg (by simp [hlt])] at heq
            exact ih (repeatN + 1) _ (nextCursorOf o P.st.lastEntry) P.st _ out stats
              (nextCursorOf_version_desc o _ hav hva) (nextCursorOf_key_pfx o _) hnew heq
      | skipAheadBreak =>
        simp only [hsig] at heq
        by_cases hsc : (P.st.scanned == 0) = true
        · rw [if_pos hsc] at heq
          simp only [Option.some.injEq, Prod.mk.injEq] at heq
          obtain ⟨ho, _⟩ := heq
          rw [← ho]
          intro e he
          exact hnew e he
        · rw [if_neg hsc] at heq
          rw [if_neg (by simp)] at heq
          exact ih (repeatN + 1) _ (nextCursorOf o P.st.lastEntry) P.st _ out stats
            (nextCursorOf_version_desc o _ hav hva) (nextCursorOf_key_pfx o _) hnew heq

/-- Claim C7 (confirmed): with AllVersions=false (and Pending, Unversioned
false: the descending single-version listing the claim describes, over a
well-formed table with unique (key, version) rows), the listing never emits
an entry for a key whose newest visible version is a delete marker: every
plain result entry is itself the newest visible version of its key and not a
delete marker, and consequently no plain entry ever points at a key topped
by a delete marker — the marker row only updates `lastEntry` (eliding the
versions behind it) and is never appended. -/
theorem listObjects_marker_elision (db : List ListRow) (o : ListOpts)
    (out : ListOut) (stats : ListStats) (hwf : RowsWF db)
    (huniq : ∀ r1 ∈ db, ∀ r2 ∈ db,
      r1.objectKey = r2.objectKey → r1.version = r2.version → r1 = r2)
    (hav : o.allVersions = false) (hp : o.pending = false) (hu : o.unversioned = false)
    (heq : listObjectsPostgres db o = some (out, stats)) :
    (∀ e ∈ out.objects, e.isPfx = false → newestVisibleNonMarker db o e) ∧
    (∀ r ∈ db, visibleRow o r → r.status.isDeleteMarker = true →
      (∀ r2 ∈ db, visibleRow o r2 → r2.objectKey = r.objectKey →
        r2.version ≤ r.version) →
      ∀ e ∈ out.objects, e.isPfx = false → o.pfx ++ e.objectKey ≠ r.objectKey) := by
  have hva : o.versionAscending = false := by
    simp [ListOpts.versionAscending, hp, hu]
  have hstartv : o.startCursor.version = maxVersion ∨ o.startCursor.version = 0 := by
    left
    rw [startCursor_version]
    simp [ListOpts.firstVersion, hva]
  have hmain : ∀ e ∈ out.objects, entryOK db o e :=
    listLoop_newest db o hwf hav hp hu (db.length + 2) 0 (o.limit + 10) o.startCursor
      ⟨⟨false, [], 0, false⟩, ⟨0, 0⟩, [], 0, false⟩ 0 out stats hstartv
      (startCursor_key_pfx o) (fun e he => absurd he (List.not_mem_nil e)) heq
  have h1 : ∀ e ∈ out.objects, e.isPfx = false → newestVisibleNonMarker db o e := by
    intro e he hnp
    rcases hmain e he with hl | hr
    · rw [hnp] at hl
      exact Bool.noConfusion hl
    · exact hr
  refine ⟨h1, ?_⟩
  intro r hr hvisr hmark hnewr e he hnp hkeyeq
  obtain ⟨rw2, hrw2, hvisw, hkw, hvw, hsw, hmw, hneww⟩ := h1 e he hnp
  have hkey3 : rw2.objectKey = r.objectKey := by rw [hkw, hkeyeq]
  have hle1 : rw2.version ≤ r.version := hnewr rw2 hrw2 hvisw hkey3
  have hle2 : r.version ≤ rw2.version := hneww r hr hvisr hkey3.symm
  have heqr : rw2 = r := huniq rw2 hrw2 r hr hkey3 (le_antisymm hle1 hle2)
  rw [heqr] at hmw
  rw [hmark] at hmw
  exact Bool.noConfusion hmw

/-- Witness for claim C7: on the concrete table the key [107] is topped by a
delete marker and is elided; the only returned entry is the newest visible
committed version of [109]. -/
theorem listObjects_marker_elision_witness :
    RowsWF exListRows ∧
    listObjectsPostgres exListRows exListOpts =
      some (⟨true, [⟨[109], 1, ObjectStatus.committedVersioned, false, true⟩], false⟩,
        ⟨1, 1, 21, 1⟩) ∧
    ((∀ e ∈ (⟨true, [⟨[109], 1, ObjectStatus.committedVersioned, false, true⟩],
        false⟩ : ListOut).objects,
      e.isPfx = false → newestVisibleNonMarker exListRows exListOpts e) ∧
     (∀ r ∈ exListRows, visibleRow exListOpts r → r.status.isDeleteMarker = true →
       (∀ r2 ∈ exListRows, visibleRow exListOpts r2 → r2.objectKey = r.objectKey →
         r2.version ≤ r.version) →
       ∀ e ∈ (⟨true, [⟨[109], 1, ObjectStatus.committedVersioned, false, true⟩],
          false⟩ : ListOut).objects,
        e.isPfx = false → exListOpts.pfx ++ e.objectKey ≠ r.objectKey)) :=
  ⟨by unfold RowsWF; decide, by decide,
   listObjects_marker_elision exListRows exListOpts
     ⟨true, [⟨[109], 1, ObjectStatus.committedVersioned, false, true⟩], false⟩
     ⟨1, 1, 21, 1⟩ (by unfold RowsWF; decide)
     (by decide) rfl rfl rfl (by decide)⟩

end Metabase
